import Mathlib

/-!
# Verification of the Multisweeper core (board, flood-fill reveal, ambiguity solver)

This file embeds the game core of the Multisweeper repository in Lean and
proves or refutes the specified properties.

Sources embedded:
* `src/core/game.js` (revision exporting `create`): tiles, `board`, `surrounding`,
  `init` (mine placement and number assignment), `reveal_rec` / `reveal`
  (flood fill plus change batching), `isGameOver`.
* `src/unnamed/part_005` (the `Game` class revision): `Game.isGameOver`
  returning the tri-state `"GAMING" | "LOSS" | "WIN"`.
* `src/core/solver.js`: `isAmbiguous` (constraint collection, constraint-graph
  component decomposition, exhaustive backtracking).

Conventions:
* JavaScript numbers used as coordinates are embedded as `Int` (they may go
  negative at the border, e.g. in `surrounding`), and the mine count argument
  of `init` as `Rat` so that the `Number.isInteger` check is expressible.
* The mutable 2-D arrays `tiles` and `visible` are embedded as total functions
  `Int → Int → _` updated pointwise; every access in the source is guarded by
  an explicit bounds check, which we mirror with the predicate `oob`.
* Operations that throw (`RangeError` on out-of-bounds access) are embedded
  with `Option`/`Except` results; unbounded recursion (the flood fill, the
  component traversal loop) is embedded with an explicit fuel parameter and
  `none` as the out-of-fuel marker, and we prove that a concrete fuel bound
  always suffices (the termination theorems).
* `sampleSize` (randomness) is not modelled as a distribution: the placement
  functions take the sampled list of mine coordinates as a parameter, and the
  contract of `sampleSize(xs, c)` (a duplicate-free selection of `c` elements
  of `xs`) appears as a hypothesis where needed.
-/

namespace Multisweeper

/-- Tile identity from `src/core/game.js` (`Tile.Emp`, `Tile.Min`, `Tile.Num(n)`).
The payload of `num` keeps the count as a plain natural number; the 1..8 range
check of `Tile.Num` is irrelevant to the properties proved here. -/
inductive Tile where
  | emp : Tile
  | mine : Tile
  | num (n : Nat) : Tile
deriving DecidableEq, Repr

/-- `range(n)` from es-toolkit, as a list of integers `0, 1, ..., n-1`
(empty for `n ≤ 0`). -/
def intRange (n : Int) : List Int :=
  (List.range n.toNat).map (fun (i : Nat) => (i : Int))

/-- `board(w, h)` from `src/core/game.js`: all coordinates of the board,
x-major (`for x of range(w) for y of range(h)`). -/
def board (w h : Int) : List (Int × Int) :=
  (intRange w).flatMap (fun x => (intRange h).map (fun y => (x, y)))

/-- `surrounding(x, y)` from `src/core/game.js`: the 8 neighbouring
coordinates, in the order produced by the two nested `dx`/`dy` loops. -/
def surrounding (x y : Int) : List (Int × Int) :=
  [(x - 1, y - 1), (x - 1, y), (x - 1, y + 1),
   (x, y - 1), (x, y + 1),
   (x + 1, y - 1), (x + 1, y), (x + 1, y + 1)]

/-- The out-of-bounds test `x < 0 || x >= w || y < 0 || y >= h` guarding every
coordinate access in the source. -/
def oob (w h x y : Int) : Bool :=
  x < 0 || x ≥ w || y < 0 || y ≥ h

/-- Pointwise update of a grid function (the effect of writing one cell of the
underlying 2-D array). -/
def upd {α : Type} (f : Int → Int → α) (a b : Int) (v : α) : Int → Int → α :=
  fun x y => if x = a ∧ y = b then v else f x y

@[simp] theorem upd_same {α : Type} (f : Int → Int → α) (a b : Int) (v : α) :
    upd f a b v a b = v := by simp [upd]

theorem upd_other {α : Type} (f : Int → Int → α) (a b x y : Int) (v : α)
    (h : ¬(x = a ∧ y = b)) : upd f a b v x y = f x y := by simp [upd, h]

/-! ## Mine placement (`init` in `src/core/game.js` / `Game.init` in part_005)

`init(c, sx, sy)` validates its arguments, samples `c` mine positions from all
coordinates except `(sx, sy)`, writes the mines, and then assigns a
`Number(n)` tile to every non-mine cell with `n > 0` adjacent mines. -/

/-- The error kinds thrown by `init`'s argument validation. -/
inductive InitError where
  | typeErr : InitError
  | rangeErr : InitError
deriving DecidableEq, Repr

/-- The validation prefix of `init(c, sx, sy)`:
`TypeError` when the mine count is not an integer, `RangeError` when
`c < 0 || c >= w*h` or when the safe coordinate is out of bounds
(in this order).  The count argument is a `Rat`, standing for the
JavaScript number passed in. -/
def initValidate (w h : Int) (c : Rat) (sx sy : Int) : Except InitError Int :=
  if c.den ≠ 1 then .error .typeErr
  else if c.num < 0 ∨ c.num ≥ w * h then .error .rangeErr
  else if oob w h sx sy then .error .rangeErr
  else .ok c.num

/-- The coordinate list `range(w*h).map(n => [n % w, Math.floor(n / w)])`
built by `init` before filtering out the safe cell. -/
def initCoordinates (w h : Int) : List (Int × Int) :=
  (intRange (w * h)).map (fun n => (n % w, n / w))

/-- `safeCoordinates` from `init`: every coordinate except the clicked cell
`(sx, sy)` (note: only the single clicked cell is excluded). -/
def safeCoordinates (w h sx sy : Int) : List (Int × Int) :=
  (initCoordinates w h).filter (fun p => !(p.1 = sx ∧ p.2 = sy))

/-- The contract of `sampleSize(xs, c)` (es-toolkit): the result is a
duplicate-free list of `c` elements drawn from `xs`. -/
def IsSample {α : Type} (xs : List α) (c : Nat) (s : List α) : Prop :=
  s.length = c ∧ s.Nodup ∧ ∀ x ∈ s, x ∈ xs

/-- The mine-writing loop of `init`: `for ([mx, my] of mines) set(mx, my, Tile.Min)`
starting from the all-`Emp` grid created by `create`. -/
def placeMines (mines : List (Int × Int)) : Int → Int → Tile :=
  mines.foldl (fun ts p => upd ts p.1 p.2 .mine) (fun _ _ => .emp)

/-- The neighbour-mine count computed by `init`'s second loop for one cell:
the number of in-bounds surrounding cells holding a mine tile. -/
def countMinAround (w h : Int) (ts : Int → Int → Tile) (x y : Int) : Nat :=
  ((surrounding x y).filter (fun q => !oob w h q.1 q.2 && ts q.1 q.2 = Tile.mine)).length

/-- The number-assignment loop of `init`: for every board cell in order, skip
mines, count adjacent mines in the grid as it currently stands, and write
`Num(n)` when `n > 0`. -/
def assignNumbers (w h : Int) (ts0 : Int → Int → Tile) : Int → Int → Tile :=
  (board w h).foldl
    (fun ts p =>
      if ts p.1 p.2 = Tile.mine then ts
      else
        let n := countMinAround w h ts p.1 p.2
        if n > 0 then upd ts p.1 p.2 (.num n) else ts)
    ts0

/-- The tile grid produced by `init` once the sampled mine list is fixed. -/
def initTiles (w h : Int) (mines : List (Int × Int)) : Int → Int → Tile :=
  assignNumbers w h (placeMines mines)

/-! ### Pointwise characterisation of the placement -/

theorem placeMines_foldl (mines : List (Int × Int)) (ts : Int → Int → Tile)
    (x y : Int) :
    (mines.foldl (fun g p => upd g p.1 p.2 .mine) ts) x y
      = if (x, y) ∈ mines then .mine else ts x y := by
  induction mines generalizing ts with
  | nil => simp
  | cons p rest ih =>
    simp only [List.foldl_cons, ih, List.mem_cons]
    by_cases hp : (x, y) = p
    · have : x = p.1 ∧ y = p.2 := by cases p; cases hp; exact ⟨rfl, rfl⟩
      by_cases hr : (x, y) ∈ rest <;> simp [hr, hp, upd, this]
    · have : ¬(x = p.1 ∧ y = p.2) := by
        intro ⟨h1, h2⟩; exact hp (by cases p; simp_all)
      by_cases hr : (x, y) ∈ rest <;> simp [hr, hp, upd_other _ _ _ _ _ _ this]

theorem placeMines_eq (mines : List (Int × Int)) (x y : Int) :
    placeMines mines x y = if (x, y) ∈ mines then .mine else .emp :=
  placeMines_foldl mines _ x y

/-- One step of the number-assignment loop. -/
def numStep (w h : Int) (ts : Int → Int → Tile) (p : Int × Int) :
    Int → Int → Tile :=
  if ts p.1 p.2 = Tile.mine then ts
  else
    let n := countMinAround w h ts p.1 p.2
    if n > 0 then upd ts p.1 p.2 (.num n) else ts

theorem assignNumbers_eq_foldl (w h : Int) (ts0 : Int → Int → Tile) :
    assignNumbers w h ts0 = (board w h).foldl (numStep w h) ts0 := rfl

/-- A single step never creates or destroys a mine tile. -/
theorem numStep_mine_iff (w h : Int) (ts : Int → Int → Tile) (p : Int × Int)
    (x y : Int) : (numStep w h ts p x y = .mine) ↔ (ts x y = .mine) := by
  unfold numStep
  by_cases hm : ts p.1 p.2 = Tile.mine
  · simp [hm]
  · simp only [hm, if_false]
    by_cases hn : countMinAround w h ts p.1 p.2 > 0
    · simp only [hn, if_true]
      by_cases hxy : x = p.1 ∧ y = p.2
      · obtain ⟨h1, h2⟩ := hxy; subst h1; subst h2; simp [upd, hm]
      · rw [upd_other _ _ _ _ _ _ hxy]
    · simp [hn]

/-- The whole loop never creates or destroys a mine tile. -/
theorem foldl_numStep_mine_iff (w h : Int) (L : List (Int × Int))
    (ts : Int → Int → Tile) (x y : Int) :
    ((L.foldl (numStep w h) ts) x y = .mine) ↔ (ts x y = .mine) := by
  induction L generalizing ts with
  | nil => simp
  | cons p rest ih => rw [List.foldl_cons, ih, numStep_mine_iff]

theorem assignNumbers_mine_iff (w h : Int) (ts : Int → Int → Tile) (x y : Int) :
    (assignNumbers w h ts x y = .mine) ↔ (ts x y = .mine) :=
  foldl_numStep_mine_iff w h _ ts x y

theorem initTiles_mine_iff (w h : Int) (mines : List (Int × Int)) (x y : Int) :
    (initTiles w h mines x y = .mine) ↔ ((x, y) ∈ mines) := by
  rw [initTiles, assignNumbers_mine_iff, placeMines_eq]
  by_cases hm : (x, y) ∈ mines <;> simp [hm]

/-- The neighbour-mine count only depends on which cells hold mines. -/
theorem countMinAround_congr (w h : Int) (ts ts' : Int → Int → Tile)
    (hst : ∀ a b, (ts a b = .mine) ↔ (ts' a b = .mine)) (x y : Int) :
    countMinAround w h ts x y = countMinAround w h ts' x y := by
  unfold countMinAround
  congr 1
  apply List.filter_congr
  intro q _
  by_cases hq : ts q.1 q.2 = Tile.mine
  · have hq' : ts' q.1 q.2 = Tile.mine := (hst q.1 q.2).mp hq
    simp [hq, hq']
  · have hq' : ¬ts' q.1 q.2 = Tile.mine := fun hc => hq ((hst q.1 q.2).mpr hc)
    simp [hq, hq']

/-- Cells that the loop never visits are left unchanged. -/
theorem foldl_numStep_not_mem (w h : Int) (L : List (Int × Int))
    (ts : Int → Int → Tile) (x y : Int) (hx : (x, y) ∉ L) :
    (L.foldl (numStep w h) ts) x y = ts x y := by
  induction L generalizing ts with
  | nil => simp
  | cons p rest ih =>
    rw [List.foldl_cons]
    have hpx : (x, y) ≠ p := fun h => hx (h ▸ List.mem_cons_self p rest)
    have hrest : (x, y) ∉ rest := fun h => hx (List.mem_cons_of_mem p h)
    rw [ih _ hrest]
    unfold numStep
    by_cases hm : ts p.1 p.2 = Tile.mine
    · simp [hm]
    · simp only [hm, if_false]
      by_cases hn : countMinAround w h ts p.1 p.2 > 0
      · simp only [hn, if_true]
        exact upd_other _ _ _ _ _ _ (fun ⟨h1, h2⟩ => hpx (by cases p; simp_all))
      · simp [hn]

/-- Pointwise result of the number-assignment loop on any duplicate-free list
containing the cell. -/
theorem foldl_numStep_mem (w h : Int) (L : List (Int × Int))
    (ts : Int → Int → Tile) (x y : Int) (hnd : L.Nodup) (hm : (x, y) ∈ L) :
    (L.foldl (numStep w h) ts) x y =
      if ts x y = Tile.mine then ts x y
      else if countMinAround w h ts x y > 0
        then .num (countMinAround w h ts x y) else ts x y := by
  induction L generalizing ts with
  | nil => cases hm
  | cons p rest ih =>
    rw [List.foldl_cons]
    rcases List.mem_cons.mp hm with hp | hr
    · subst hp
      have hnot : (x, y) ∉ rest := (List.nodup_cons.mp hnd).1
      rw [foldl_numStep_not_mem w h rest _ x y hnot]
      unfold numStep
      by_cases hmine : ts x y = Tile.mine
      · simp [hmine]
      · simp only [hmine, if_false]
        by_cases hn : countMinAround w h ts x y > 0
        · simp [hn, upd]
        · simp [hn]
    · have hpx : (x, y) ≠ p := by
        rintro rfl
        exact (List.nodup_cons.mp hnd).1 hr
      have hstep_xy : numStep w h ts p x y = ts x y := by
        unfold numStep
        by_cases hmine : ts p.1 p.2 = Tile.mine
        · simp [hmine]
        · simp only [hmine, if_false]
          by_cases hn : countMinAround w h ts p.1 p.2 > 0
          · simp only [hn, if_true]
            exact upd_other _ _ _ _ _ _ (fun ⟨h1, h2⟩ => hpx (by cases p; simp_all))
          · simp [hn]
      have hcnt : countMinAround w h (numStep w h ts p) x y
          = countMinAround w h ts x y :=
        countMinAround_congr w h _ _ (fun a b => numStep_mine_iff w h ts p a b) x y
      rw [ih _ (List.nodup_cons.mp hnd).2 hr, hstep_xy, hcnt]

theorem mem_intRange (n k : Int) : k ∈ intRange n ↔ 0 ≤ k ∧ k < n := by
  unfold intRange
  constructor
  · intro hk
    obtain ⟨i, hi, rfl⟩ := List.mem_map.mp hk
    have hi' : i < n.toNat := List.mem_range.mp hi
    omega
  · rintro ⟨h0, hn⟩
    refine List.mem_map.mpr ⟨k.toNat, List.mem_range.mpr (by omega), by omega⟩

theorem intRange_nodup (n : Int) : (intRange n).Nodup :=
  List.Nodup.map (fun a b hab => by exact_mod_cast hab) (List.nodup_range _)

theorem board_eq_product (w h : Int) : board w h = intRange w ×ˢ intRange h := rfl

theorem mem_board (w h x y : Int) :
    (x, y) ∈ board w h ↔ oob w h x y = false := by
  rw [board_eq_product, List.mem_product, mem_intRange, mem_intRange]
  unfold oob
  simp only [Bool.or_eq_false_iff, decide_eq_false_iff_not]
  omega

theorem board_nodup (w h : Int) : (board w h).Nodup := by
  rw [board_eq_product]
  exact List.Nodup.product (intRange_nodup w) (intRange_nodup h)

/-- Pointwise characterisation of the whole placement: in-bounds cells hold a
mine iff sampled, a `Num(n)` with `n` the true neighbour-mine count when that
count is positive, and stay `Emp` otherwise. -/
theorem initTiles_char (w h : Int) (mines : List (Int × Int)) (x y : Int)
    (hin : oob w h x y = false) :
    initTiles w h mines x y =
      if (x, y) ∈ mines then .mine
      else if countMinAround w h (placeMines mines) x y > 0
        then .num (countMinAround w h (placeMines mines) x y) else .emp := by
  have hmem : (x, y) ∈ board w h := (mem_board w h x y).mpr hin
  have := foldl_numStep_mem w h (board w h) (placeMines mines) x y
    (board_nodup w h) hmem
  rw [initTiles, assignNumbers_eq_foldl, this, placeMines_eq]
  by_cases hm : (x, y) ∈ mines <;> simp [hm]

theorem initTiles_mine_status (w h : Int) (mines : List (Int × Int)) (a b : Int) :
    (initTiles w h mines a b = .mine) ↔ (placeMines mines a b = .mine) :=
  assignNumbers_mine_iff w h _ a b

theorem countMinAround_initTiles (w h : Int) (mines : List (Int × Int)) (x y : Int) :
    countMinAround w h (initTiles w h mines) x y
      = countMinAround w h (placeMines mines) x y :=
  countMinAround_congr w h _ _ (initTiles_mine_status w h mines) x y

/-- C7: after placement an in-bounds `Emp` cell has no in-bounds mine
neighbour, and a non-mine cell is `Num(n)` exactly when its neighbour-mine
count `n` is positive (else it is `Emp`). -/
theorem init_flood_safety (w h : Int) (mines : List (Int × Int)) (x y : Int)
    (hin : oob w h x y = false) :
    (initTiles w h mines x y = .emp →
      ∀ q ∈ surrounding x y, oob w h q.1 q.2 = false →
        initTiles w h mines q.1 q.2 ≠ .mine)
    ∧ (initTiles w h mines x y ≠ .mine →
        initTiles w h mines x y =
          if 0 < countMinAround w h (initTiles w h mines) x y
          then .num (countMinAround w h (initTiles w h mines) x y)
          else .emp) := by
  have hchar := initTiles_char w h mines x y hin
  have hcnt := countMinAround_initTiles w h mines x y
  constructor
  · intro hemp q hq hqin
    by_cases hm : (x, y) ∈ mines
    · rw [hchar, if_pos hm] at hemp; cases hemp
    · rw [hchar, if_neg hm] at hemp
      by_cases hp : countMinAround w h (placeMines mines) x y > 0
      · rw [if_pos hp] at hemp; cases hemp
      · have hzero : countMinAround w h (placeMines mines) x y = 0 := by omega
        have hfil := List.length_eq_zero.mp hzero
        have hnone := List.filter_eq_nil_iff.mp hfil q hq
        intro hqm
        have : placeMines mines q.1 q.2 = Tile.mine :=
          (initTiles_mine_status w h mines q.1 q.2).mp hqm
        simp [hqin, this] at hnone
  · intro hnm
    by_cases hm : (x, y) ∈ mines
    · exact absurd (hchar.trans (if_pos hm)) hnm
    · rw [hchar, if_neg hm, hcnt]

theorem init_flood_safety_witness :
    oob 2 2 0 0 = false ∧
    ((initTiles 2 2 [((1 : Int), (1 : Int))] 0 0 = .emp →
      ∀ q ∈ surrounding 0 0, oob 2 2 q.1 q.2 = false →
        initTiles 2 2 [((1 : Int), (1 : Int))] q.1 q.2 ≠ .mine)
    ∧ (initTiles 2 2 [((1 : Int), (1 : Int))] 0 0 ≠ .mine →
        initTiles 2 2 [((1 : Int), (1 : Int))] 0 0 =
          if 0 < countMinAround 2 2 (initTiles 2 2 [((1 : Int), (1 : Int))]) 0 0
          then .num (countMinAround 2 2 (initTiles 2 2 [((1 : Int), (1 : Int))]) 0 0)
          else .emp)) :=
  ⟨by decide, init_flood_safety 2 2 [((1 : Int), (1 : Int))] 0 0 (by decide)⟩

/-- C2 (amended): the anchor cell itself is never a mine, for any placement
drawn from `safeCoordinates` (which excludes exactly the anchor). -/
theorem init_anchor_not_mine (w h sx sy : Int) (c : Nat)
    (mines : List (Int × Int))
    (hs : IsSample (safeCoordinates w h sx sy) c mines) :
    initTiles w h mines sx sy ≠ .mine := by
  intro hmine
  have hmem : (sx, sy) ∈ mines := (initTiles_mine_iff w h mines sx sy).mp hmine
  have hsafe := hs.2.2 _ hmem
  have := (List.mem_filter.mp hsafe).2
  simp at this

theorem init_anchor_not_mine_witness :
    IsSample (safeCoordinates 2 1 0 0) 1 [((1 : Int), (0 : Int))] ∧
    initTiles 2 1 [((1 : Int), (0 : Int))] 0 0 ≠ .mine :=
  ⟨by unfold IsSample; decide,
   init_anchor_not_mine 2 1 0 0 1 [((1 : Int), (0 : Int))]
     (by unfold IsSample; decide)⟩

/-- C2 (counterexample): on a 2×1 board with one mine and anchor (0,0), the
only placement the code can draw is `[(1,0)]`, which puts a mine directly
next to the anchor — the 3×3 safe zone claimed by the spec does not exist. -/
theorem init_safe_zone_cex :
    IsSample (safeCoordinates 2 1 0 0) 1 [((1 : Int), (0 : Int))]
    ∧ ((1 : Int), (0 : Int)) ∈ surrounding 0 0
    ∧ oob 2 1 1 0 = false
    ∧ initTiles 2 1 [((1 : Int), (0 : Int))] 1 0 = .mine := by
  refine ⟨by unfold IsSample; decide, by decide, by decide, by decide⟩

/-- C4 (amended): `init` accepts a mine count iff it is an integer in
`[0, w*h-1]`; a non-integer count is a type error and an integral count
outside that range is a range error. -/
theorem initValidate_char (w h : Int) (c : Rat) (sx sy : Int)
    (hanchor : oob w h sx sy = false) :
    ((∃ ci, initValidate w h c sx sy = .ok ci)
        ↔ (c.den = 1 ∧ 0 ≤ c.num ∧ c.num < w * h))
    ∧ (c.den ≠ 1 → initValidate w h c sx sy = .error .typeErr)
    ∧ (c.den = 1 → (c.num < 0 ∨ w * h ≤ c.num) →
        initValidate w h c sx sy = .error .rangeErr) := by
  unfold initValidate
  by_cases hden : c.den = 1
  · rw [if_neg (fun hc => hc hden)]
    by_cases hr : c.num < 0 ∨ c.num ≥ w * h
    · rw [if_pos hr]
      refine ⟨⟨?_, ?_⟩, ?_, ?_⟩
      · rintro ⟨ci, hci⟩; cases hci
      · rintro ⟨_, h1, h2⟩; omega
      · intro hcon; exact absurd hden hcon
      · intro _ _; rfl
    · rw [if_neg hr, if_neg (by simp [hanchor])]
      push_neg at hr
      refine ⟨⟨?_, ?_⟩, ?_, ?_⟩
      · intro _; exact ⟨hden, hr.1, hr.2⟩
      · intro _; exact ⟨c.num, rfl⟩
      · intro hcon; exact absurd hden hcon
      · intro _ hc; omega
  · rw [if_pos hden]
    refine ⟨⟨?_, ?_⟩, ?_, ?_⟩
    · rintro ⟨ci, hci⟩; cases hci
    · rintro ⟨h1, _⟩; exact absurd h1 hden
    · intro _; rfl
    · intro h1 _; exact absurd h1 hden

theorem initValidate_char_witness :
    oob 3 3 0 0 = false ∧
    (((∃ ci, initValidate 3 3 (8 : Rat) 0 0 = .ok ci)
        ↔ ((8 : Rat).den = 1 ∧ 0 ≤ (8 : Rat).num ∧ (8 : Rat).num < 3 * 3))
    ∧ ((8 : Rat).den ≠ 1 → initValidate 3 3 (8 : Rat) 0 0 = .error .typeErr)
    ∧ ((8 : Rat).den = 1 → ((8 : Rat).num < 0 ∨ 3 * 3 ≤ (8 : Rat).num) →
        initValidate 3 3 (8 : Rat) 0 0 = .error .rangeErr)) :=
  ⟨by decide, initValidate_char 3 3 (8 : Rat) 0 0 (by decide)⟩

/-- C4 (counterexample): on a 3×3 board the claimed bound `[0, w*h-9]` would
reject a count of 8, but the code accepts every integral count up to
`w*h-1 = 8`. -/
theorem initValidate_cex :
    (8 : Rat).den = 1 ∧ ((3 * 3 - 9 : Int) < (8 : Rat).num)
    ∧ initValidate 3 3 (8 : Rat) 0 0 = .ok 8 := by
  refine ⟨rfl, by decide, rfl⟩

/-! ## Reveal and flood fill (`reveal_rec` / `reveal` in `src/core/game.js`)

`reveal_rec` marks the cell visible, records the coordinate in the change
batch, and, when the tile is `Emp`, recurses into every in-bounds neighbour
that is still hidden (`apply(xx,yy) === TileHidden`, i.e. not visible).
`reveal` runs `reveal_rec` and then `notify()`, which flushes a nonempty
batch to every observer. -/

/-- The reveal-relevant state of one `create`d game: geometry, tile grid,
visibility overlay, and the in-flight change batch. -/
structure GameState where
  w : Int
  h : Int
  tiles : Int → Int → Tile
  visible : Int → Int → Bool
  changes : List (Int × Int)

/-- The `for ([xx, yy] of surrounding(x, y))` loop body of `reveal_rec`,
abstracted over the recursive call `f` (which carries one less fuel):
skip out-of-bounds neighbours, skip visible neighbours, recurse into hidden
ones, threading the state. -/
def revealFoldAux (f : GameState → Int → Int → Option GameState)
    (w h : Int) : GameState → List (Int × Int) → Option GameState
  | st, [] => some st
  | st, p :: rest =>
    if oob w h p.1 p.2 then revealFoldAux f w h st rest
    else if st.visible p.1 p.2 then revealFoldAux f w h st rest
    else
      match f st p.1 p.2 with
      | none => none
      | some st' => revealFoldAux f w h st' rest

/-- `reveal_rec(x, y)` with an explicit recursion-depth budget.  `none` marks
either the `RangeError` thrown on out-of-bounds coordinates or an exhausted
budget; the termination theorem below shows a concrete budget always
suffices, so the budget is only a device to express the recursion. -/
def revealRecF : Nat → GameState → Int → Int → Option GameState
  | 0, _, _, _ => none
  | fuel + 1, st, x, y =>
    if oob st.w st.h x y then none
    else
      let st1 : GameState :=
        { st with visible := upd st.visible x y true,
                  changes := st.changes ++ [(x, y)] }
      match st1.tiles x y with
      | .emp => revealFoldAux (revealRecF fuel) st.w st.h st1 (surrounding x y)
      | _ => some st1

/-- `reveal(x, y)` followed by `notify()`: the result pairs the final state
(with its batch flushed) with the coordinate list delivered to every
observer (empty when nothing was batched). -/
def reveal (fuel : Nat) (st : GameState) (x y : Int) :
    Option (GameState × List (Int × Int)) :=
  (revealRecF fuel st x y).map fun st' =>
    if st'.changes.length > 0 then ({ st' with changes := [] }, st'.changes)
    else (st', [])

/-- What one flood fill preserves: the geometry and the tile grid are
untouched, visibility only grows, and the change batch is only appended to. -/
def RevealPres (st st' : GameState) : Prop :=
  st'.w = st.w ∧ st'.h = st.h ∧ (∀ a b, st'.tiles a b = st.tiles a b)
  ∧ (∀ a b, st.visible a b = true → st'.visible a b = true)
  ∧ ∃ ds, st'.changes = st.changes ++ ds

theorem RevealPres.refl (st : GameState) : RevealPres st st :=
  ⟨rfl, rfl, fun _ _ => rfl, fun _ _ hv => hv, [], by simp⟩

theorem RevealPres.trans {s t u : GameState}
    (h1 : RevealPres s t) (h2 : RevealPres t u) : RevealPres s u := by
  obtain ⟨hw1, hh1, ht1, hv1, d1, hc1⟩ := h1
  obtain ⟨hw2, hh2, ht2, hv2, d2, hc2⟩ := h2
  exact ⟨hw2.trans hw1, hh2.trans hh1, fun a b => (ht2 a b).trans (ht1 a b),
    fun a b hv => hv2 a b (hv1 a b hv), d1 ++ d2, by rw [hc2, hc1, List.append_assoc]⟩

theorem revealFoldAux_pres (f : GameState → Int → Int → Option GameState)
    (w h : Int) (hf : ∀ s a b s', f s a b = some s' → RevealPres s s') :
    ∀ (l : List (Int × Int)) (st st' : GameState),
      revealFoldAux f w h st l = some st' → RevealPres st st' := by
  intro l
  induction l with
  | nil =>
    intro st st' hst
    simp only [revealFoldAux] at hst
    cases hst
    exact RevealPres.refl st
  | cons p rest ih =>
    intro st st' hst
    simp only [revealFoldAux] at hst
    by_cases ho : oob w h p.1 p.2
    · rw [if_pos ho] at hst; exact ih st st' hst
    · rw [if_neg ho] at hst
      by_cases hv : st.visible p.1 p.2
      · rw [if_pos hv] at hst; exact ih st st' hst
      · rw [if_neg hv] at hst
        cases hmid : f st p.1 p.2 with
        | none => rw [hmid] at hst; cases hst
        | some smid =>
          rw [hmid] at hst
          exact (hf st p.1 p.2 smid hmid).trans (ih smid st' hst)

theorem revealRecF_pres :
    ∀ (fuel : Nat) (st : GameState) (x y : Int) (st' : GameState),
      revealRecF fuel st x y = some st' → RevealPres st st' := by
  intro fuel
  induction fuel with
  | zero => intro st x y st' hst; cases hst
  | succ fuel ih =>
    intro st x y st' hst
    simp only [revealRecF] at hst
    by_cases ho : oob st.w st.h x y
    · rw [if_pos ho] at hst; cases hst
    · rw [if_neg ho] at hst
      set st1 : GameState :=
        { st with visible := upd st.visible x y true,
                  changes := st.changes ++ [(x, y)] } with hst1
      have hpres1 : RevealPres st st1 := by
        refine ⟨rfl, rfl, fun _ _ => rfl, fun a b hv => ?_, [(x, y)], rfl⟩
        by_cases hab : a = x ∧ b = y
        · obtain ⟨rfl, rfl⟩ := hab; simp [upd]
        · rw [show st1.visible = upd st.visible x y true from rfl,
            upd_other _ _ _ _ _ _ hab]; exact hv
      rcases htile : st1.tiles x y with _ | _ | n
      · rw [htile] at hst
        exact hpres1.trans (revealFoldAux_pres _ _ _ (ih) _ st1 st' hst)
      · rw [htile] at hst; injection hst with hst; exact hst ▸ hpres1
      · rw [htile] at hst; injection hst with hst; exact hst ▸ hpres1

/-! ### Termination of the flood fill -/

/-- The number of hidden cells on the board: the measure that bounds the
recursion depth of `reveal_rec` (a recursive call happens only on a cell that
is hidden at call time and is marked visible immediately). -/
def hiddenCount (st : GameState) : Nat :=
  ((board st.w st.h).filter (fun p => !st.visible p.1 p.2)).length

theorem hiddenCount_mono {s s' : GameState} (hp : RevealPres s s') :
    hiddenCount s' ≤ hiddenCount s := by
  obtain ⟨hw, hh, _, hv, _⟩ := hp
  unfold hiddenCount
  rw [hw, hh, ← List.countP_eq_length_filter, ← List.countP_eq_length_filter]
  apply List.countP_mono_left
  intro p _ hps
  simp only [Bool.not_eq_true'] at hps ⊢
  by_cases hb : s.visible p.1 p.2 = true
  · exact absurd (hv p.1 p.2 hb) (by simp [hps])
  · simpa using hb

theorem hiddenCount_congr (s s' : GameState) (hw : s'.w = s.w) (hh : s'.h = s.h)
    (hv : ∀ a b, s'.visible a b = s.visible a b) :
    hiddenCount s' = hiddenCount s := by
  unfold hiddenCount
  rw [hw, hh]
  congr 1
  apply List.filter_congr
  intro p _
  rw [hv p.1 p.2]

/-- Marking one hidden in-bounds cell visible decreases the hidden count by
exactly one (stated over a generic duplicate-free coordinate list). -/
theorem filter_hidden_mark (L : List (Int × Int)) (vis : Int → Int → Bool)
    (x y : Int) (hnd : L.Nodup) (hmem : (x, y) ∈ L) (hvis : vis x y = false) :
    (L.filter (fun p => !(upd vis x y true) p.1 p.2)).length + 1
      = (L.filter (fun p => !vis p.1 p.2)).length := by
  induction L with
  | nil => cases hmem
  | cons q rest ih =>
    have hnd' := List.nodup_cons.mp hnd
    rcases List.mem_cons.mp hmem with hq | hr
    · subst hq
      have hne : (x, y) ∉ rest := hnd'.1
      have hagree : ∀ p ∈ rest,
          (fun p : Int × Int => !(upd vis x y true) p.1 p.2) p
            = (fun p : Int × Int => !vis p.1 p.2) p := by
        intro p hp
        have hpq : ¬(p.1 = x ∧ p.2 = y) := by
          rintro ⟨h1, h2⟩
          exact hne (by cases p; simp_all)
        simp only [upd_other _ _ _ _ _ _ hpq]
      rw [List.filter_cons, List.filter_cons]
      simp only [upd_same, hvis, Bool.not_true, Bool.not_false, if_false, if_true]
      rw [List.filter_congr hagree]
      simp
    · have hqx : ¬(q.1 = x ∧ q.2 = y) := by
        rintro ⟨h1, h2⟩
        exact hnd'.1 (by cases q; simp_all)
      rw [List.filter_cons, List.filter_cons]
      simp only [upd_other _ _ _ _ _ _ hqx]
      by_cases hqv : vis q.1 q.2
      · simp only [hqv, Bool.not_true, if_false]
        exact ih hnd'.2 hr
      · simp only [Bool.not_eq_true] at hqv
        simp only [hqv, Bool.not_false, if_true, List.length_cons]
        have hih := ih hnd'.2 hr
        omega

theorem hiddenCount_mark (st : GameState) (x y : Int)
    (hin : oob st.w st.h x y = false) (hvis : st.visible x y = false) :
    hiddenCount { st with visible := upd st.visible x y true,
                          changes := st.changes ++ [(x, y)] } + 1
      = hiddenCount st :=
  filter_hidden_mark (board st.w st.h) st.visible x y (board_nodup _ _)
    ((mem_board _ _ _ _).mpr hin) hvis

theorem revealFoldAux_isSome (f : Nat) (w h : Int)
    (hrec : ∀ (s : GameState) (a b : Int), s.w = w → s.h = h →
      oob w h a b = false → s.visible a b = false → hiddenCount s < f →
      (revealRecF f s a b).isSome = true) :
    ∀ (l : List (Int × Int)) (s : GameState), s.w = w → s.h = h →
      hiddenCount s < f →
      (revealFoldAux (revealRecF f) w h s l).isSome = true := by
  intro l
  induction l with
  | nil => intros; simp [revealFoldAux]
  | cons p rest ih =>
    intro s hw hh hcnt
    simp only [revealFoldAux]
    by_cases ho : oob w h p.1 p.2
    · rw [if_pos ho]; exact ih s hw hh hcnt
    · rw [if_neg ho]
      by_cases hv : s.visible p.1 p.2
      · rw [if_pos hv]; exact ih s hw hh hcnt
      · rw [if_neg hv]
        have hsome := hrec s p.1 p.2 hw hh (by simpa using ho)
          (Bool.not_eq_true _ ▸ hv) hcnt
        cases hmid : revealRecF f s p.1 p.2 with
        | none => rw [hmid] at hsome; cases hsome
        | some smid =>
          have hp := revealRecF_pres f s p.1 p.2 smid hmid
          have hcnt2 : hiddenCount smid ≤ hiddenCount s := hiddenCount_mono hp
          exact ih smid (hp.1.trans hw) (hp.2.1.trans hh)
            (lt_of_le_of_lt hcnt2 hcnt)

/-- A call of `reveal_rec` on a hidden in-bounds cell succeeds whenever the
budget exceeds the number of hidden cells. -/
theorem revealRecF_isSome_of_hidden :
    ∀ (f : Nat) (st : GameState) (x y : Int),
      oob st.w st.h x y = false → st.visible x y = false →
      hiddenCount st < f → (revealRecF f st x y).isSome = true := by
  intro f
  induction f with
  | zero => intro st x y _ _ hcnt; omega
  | succ f ih =>
    intro st x y hin hvis hcnt
    have hmark := hiddenCount_mark st x y hin hvis
    simp only [revealRecF, hin, Bool.false_eq_true, if_false]
    rcases htile : st.tiles x y with _ | _ | n
    · simp only [htile]
      exact revealFoldAux_isSome f st.w st.h
        (fun s a b hw hh hoob hvb hcb =>
          ih s a b (by rw [hw, hh]; exact hoob) hvb hcb)
        (surrounding x y) _ rfl rfl (by omega)
    · simp only [htile, Option.isSome_some]
    · simp only [htile, Option.isSome_some]

/-- Flood fill terminates: a budget of `hiddenCount + 2` always suffices for
an in-bounds reveal (the extra step covers a top-level call on an
already-visible cell, which does not shrink the hidden set). -/
theorem revealRecF_terminates (st : GameState) (x y : Int)
    (hin : oob st.w st.h x y = false) :
    (revealRecF (hiddenCount st + 2) st x y).isSome = true := by
  by_cases hvis : st.visible x y = true
  · show (revealRecF (hiddenCount st + 1 + 1) st x y).isSome = true
    simp only [revealRecF, hin, Bool.false_eq_true, if_false]
    rcases htile : st.tiles x y with _ | _ | n
    · simp only [htile]
      have hcongr : hiddenCount
          { st with visible := upd st.visible x y true,
                    changes := st.changes ++ [(x, y)] } = hiddenCount st := by
        apply hiddenCount_congr
        · rfl
        · rfl
        · intro a b
          by_cases hab : a = x ∧ b = y
          · obtain ⟨rfl, rfl⟩ := hab; simp [upd, hvis]
          · exact upd_other _ _ _ _ _ _ hab
      exact revealFoldAux_isSome (hiddenCount st + 1) st.w st.h
        (fun s a b hw hh hoob hvb hcb =>
          revealRecF_isSome_of_hidden _ s a b (by rw [hw, hh]; exact hoob) hvb hcb)
        (surrounding x y) _ rfl rfl (by omega)
    · simp only [htile, Option.isSome_some]
    · simp only [htile, Option.isSome_some]
  · exact revealRecF_isSome_of_hidden _ st x y hin
      (Bool.not_eq_true _ ▸ hvis) (by omega)

/-! ### Frame property and re-reveal behaviour of `reveal` -/

/-- C10: a successful `reveal` never changes the tile grid (nor the
geometry); only the visibility overlay and the change batch move. -/
theorem reveal_preserves_tiles (fuel : Nat) (st : GameState) (x y : Int)
    (st' : GameState) (cs : List (Int × Int))
    (hr : reveal fuel st x y = some (st', cs)) :
    (∀ a b, st'.tiles a b = st.tiles a b) ∧ st'.w = st.w ∧ st'.h = st.h := by
  unfold reveal at hr
  cases hrec : revealRecF fuel st x y with
  | none => rw [hrec] at hr; cases hr
  | some s0 =>
    rw [hrec] at hr
    have hp := revealRecF_pres fuel st x y s0 hrec
    simp only [Option.map_some'] at hr
    by_cases hlen : s0.changes.length > 0
    · rw [if_pos hlen] at hr
      injection hr with hr
      have h1 : st' = { s0 with changes := [] } := (Prod.mk.injEq .. ▸ hr).1.symm
      subst h1
      exact ⟨fun a b => hp.2.2.1 a b, hp.1, hp.2.1⟩
    · rw [if_neg hlen] at hr
      injection hr with hr
      have h1 : st' = s0 := (Prod.mk.injEq .. ▸ hr).1.symm
      subst h1
      exact ⟨fun a b => hp.2.2.1 a b, hp.1, hp.2.1⟩

theorem reveal_preserves_tiles_witness :
    reveal 1 ⟨1, 1, fun _ _ => .emp, fun _ _ => false, []⟩ 0 0
      = some (⟨1, 1, fun _ _ => .emp, upd (fun _ _ => false) 0 0 true, []⟩,
          [((0 : Int), (0 : Int))])
    ∧ ((∀ a b,
        (⟨1, 1, fun _ _ => .emp, upd (fun _ _ => false) 0 0 true, []⟩
            : GameState).tiles a b
          = (⟨1, 1, fun _ _ => .emp, fun _ _ => false, []⟩ : GameState).tiles a b)
      ∧ (⟨1, 1, fun _ _ => .emp, upd (fun _ _ => false) 0 0 true, []⟩
            : GameState).w = (⟨1, 1, fun _ _ => .emp, fun _ _ => false, []⟩
            : GameState).w
      ∧ (⟨1, 1, fun _ _ => .emp, upd (fun _ _ => false) 0 0 true, []⟩
            : GameState).h = (⟨1, 1, fun _ _ => .emp, fun _ _ => false, []⟩
            : GameState).h) :=
  ⟨rfl, reveal_preserves_tiles 1 _ 0 0 _ _ rfl⟩

/-- C5 (amended): re-revealing an already-visible cell whose tile is not
`Emp` changes no cell's visibility, yet the coordinate is batched again and
delivered to the observers as a one-element notification. -/
theorem reveal_revisit (fuel : Nat) (st : GameState) (x y : Int)
    (hin : oob st.w st.h x y = false) (hvis : st.visible x y = true)
    (hne : st.tiles x y ≠ .emp) (hch : st.changes = []) :
    reveal (fuel + 1) st x y
      = some ({ st with visible := upd st.visible x y true, changes := [] },
          [(x, y)])
    ∧ (∀ a b, upd st.visible x y true a b = st.visible a b) := by
  have hpt : ∀ a b, upd st.visible x y true a b = st.visible a b := by
    intro a b
    by_cases hab : a = x ∧ b = y
    · obtain ⟨rfl, rfl⟩ := hab; simp [upd, hvis]
    · exact upd_other _ _ _ _ _ _ hab
  refine ⟨?_, hpt⟩
  unfold reveal
  simp only [revealRecF, hin, Bool.false_eq_true, if_false]
  rcases htile : st.tiles x y with _ | _ | n
  · exact absurd htile hne
  · simp only [htile, Option.map_some', hch]
    rfl
  · simp only [htile, Option.map_some', hch]
    rfl

theorem reveal_revisit_witness :
    (oob (1 : Int) (1 : Int) 0 0 = false
      ∧ (⟨1, 1, fun _ _ => .mine, fun _ _ => true, []⟩
          : GameState).visible 0 0 = true
      ∧ (⟨1, 1, fun _ _ => .mine, fun _ _ => true, []⟩
          : GameState).tiles 0 0 ≠ .emp
      ∧ (⟨1, 1, fun _ _ => .mine, fun _ _ => true, []⟩
          : GameState).changes = [])
    ∧ (reveal 1 ⟨1, 1, fun _ _ => .mine, fun _ _ => true, []⟩ 0 0
        = some ({ (⟨1, 1, fun _ _ => .mine, fun _ _ => true, []⟩ : GameState)
            with visible := upd (fun _ _ => true) 0 0 true, changes := [] },
          [((0 : Int), (0 : Int))])
      ∧ (∀ a b, upd (fun (_ _ : Int) => true) 0 0 true a b
          = (⟨1, 1, fun _ _ => .mine, fun _ _ => true, []⟩
              : GameState).visible a b)) :=
  ⟨⟨by decide, rfl, by decide, rfl⟩,
    reveal_revisit 0 ⟨1, 1, fun _ _ => .mine, fun _ _ => true, []⟩ 0 0
      (by decide) rfl (by decide) rfl⟩

/-- C5 (counterexample): on a 1×1 board whose only cell is visible, calling
`reveal(0,0)` again still records the coordinate and delivers it to the
observers — the call is not change-free. -/
theorem reveal_revisit_cex :
    ((⟨1, 1, fun _ _ => .emp, fun _ _ => true, []⟩ : GameState).visible 0 0
        = true)
    ∧ (reveal 2 ⟨1, 1, fun _ _ => .emp, fun _ _ => true, []⟩ 0 0).map Prod.snd
        = some [((0 : Int), (0 : Int))] :=
  ⟨rfl, rfl⟩

/-! ## Solver (`isAmbiguous` in `src/core/solver.js`)

`isAmbiguous(w, h, isVisible, get)` scans the board for visible `Number`
cells, builds one constraint per such cell over its hidden neighbours,
decomposes the constraint graph into connected components, enumerates every
consistent 0/1 assignment per component by pruned backtracking, and reports
`true` exactly when no hidden cell is forced safe. -/

/-- One solver constraint: the identifiers of the hidden cells around one
visible `Number` tile, and the number of mines that must remain among them
(`t.n - minesAround`, which may be negative on inconsistent boards). -/
structure Constraint where
  ids : List Nat
  value : Int
deriving DecidableEq, Repr

/-- The hidden in-bounds neighbours of a cell, in `surrounding` order. -/
def hiddenNeighbors (w h : Int) (isVisible : Int → Int → Bool) (x y : Int) :
    List (Int × Int) :=
  (surrounding x y).filter (fun p => !oob w h p.1 p.2 && !isVisible p.1 p.2)

/-- The visible mines among the in-bounds neighbours of a cell. -/
def minesAround (w h : Int) (isVisible : Int → Int → Bool)
    (get : Int → Int → Tile) (x y : Int) : Nat :=
  ((surrounding x y).filter (fun p =>
    !oob w h p.1 p.2 && isVisible p.1 p.2
      && decide (get p.1 p.2 = Tile.mine))).length

/-- `hiddenTileToId.get(key) ?? fresh`: look the cell up in the key table,
appending it when new (the table plays both roles of `hiddenTileToId` and
`idToHiddenTile`: an identifier is an index into it). -/
def internOne (keys : List (Int × Int)) (c : Int × Int) :
    List (Int × Int) × Nat :=
  match keys.indexOf? c with
  | some i => (keys, i)
  | none => (keys ++ [c], keys.length)

/-- Identifier assignment for all hidden neighbours of one constraint. -/
def internList (keys : List (Int × Int)) :
    List (Int × Int) → List (Int × Int) × List Nat
  | [] => (keys, [])
  | c :: rest =>
    let k1 := internOne keys c
    let k2 := internList k1.1 rest
    (k2.1, k1.2 :: k2.2)

/-- The state threaded through the constraint-building scan: the key table,
the constraint list, the has-a-visible-cell flag, and the
safe-cell-found flag standing for the source's early `return false`. -/
structure ScanState where
  keys : List (Int × Int)
  constraints : List Constraint
  hasVisible : Bool
  safeFound : Bool

/-- Processing of one board cell by the constraint-building scan.  Once
`safeFound` is set the source has already returned, so the scan freezes. -/
def scanCell (w h : Int) (isVisible : Int → Int → Bool)
    (get : Int → Int → Tile) (s : ScanState) (p : Int × Int) : ScanState :=
  if s.safeFound then s
  else if isVisible p.1 p.2 then
    let s1 : ScanState := { s with hasVisible := true }
    match get p.1 p.2 with
    | .num n =>
      let hn := hiddenNeighbors w h isVisible p.1 p.2
      let ma := minesAround w h isVisible get p.1 p.2
      if hn.isEmpty then s1
      else
        let rem : Int := (n : Int) - (ma : Int)
        if rem = 0 then { s1 with safeFound := true }
        else
          let ki := internList s1.keys hn
          { s1 with keys := ki.1,
                    constraints := s1.constraints ++ [⟨ki.2, rem⟩] }
    | _ => s1
  else s

/-- The full `for x of range(w) / for y of range(h)` constraint scan. -/
def scanBoard (w h : Int) (isVisible : Int → Int → Bool)
    (get : Int → Int → Tile) : ScanState :=
  (board w h).foldl (scanCell w h isVisible get) ⟨[], [], false, false⟩

/-- `if (!adj[u].includes(v)) adj[u].push(v)`. -/
def pushEdge (adj : List (List Nat)) (u v : Nat) : List (List Nat) :=
  if (adj.getD u []).contains v then adj
  else adj.set u ((adj.getD u []) ++ [v])

/-- One unordered pair of one constraint: both directed pushes. -/
def edgeStep (adj : List (List Nat)) (uv : Nat × Nat) : List (List Nat) :=
  pushEdge (pushEdge adj uv.1 uv.2) uv.2 uv.1

/-- The index pairs `i < j` of one id list, in the source's loop order. -/
def tailPairs : List Nat → List (Nat × Nat)
  | [] => []
  | u :: rest => (rest.map (fun v => (u, v))) ++ tailPairs rest

/-- The adjacency array over hidden-cell identifiers: an edge joins two ids
whenever they co-occur in a constraint. -/
def buildAdj (numVars : Nat) (constraints : List Constraint) :
    List (List Nat) :=
  constraints.foldl (fun adj c => (tailPairs c.ids).foldl edgeStep adj)
    (List.replicate numVars [])

/-- The component traversal (`while (q.length > 0) { const u = q.pop(); ... }`)
with an explicit budget; the queue is kept top-first (`push` is cons, `pop`
takes the head), matching the source's end-of-array stack. -/
def bfsF (adj : List (List Nat)) : Nat → List Nat → List Bool → List Nat →
    Option (List Nat × List Bool)
  | _, [], visited, acc => some (acc, visited)
  | 0, _ :: _, _, _ => none
  | fuel + 1, u :: q, visited, acc =>
    let step := (adj.getD u []).foldl
      (fun (vq : List Bool × List Nat) v =>
        if vq.1.getD v false then vq else (vq.1.set v true, v :: vq.2))
      (visited, q)
    bfsF adj fuel step.2 step.1 (acc ++ [u])

/-- The constraints of one component, with ids renumbered to positions in
`comp` (`componentVars.indexOf`). -/
def compConstraints (constraints : List Constraint) (comp : List Nat) :
    List Constraint :=
  (constraints.filter (fun c => c.ids.any (fun id => comp.contains id))).map
    (fun c => ⟨(c.ids.filter (fun id => comp.contains id)).map
        (fun id => comp.indexOf id), c.value⟩)

/-- `check(upto)`: walk one constraint's ids, summing the assigned prefix and
counting the unassigned rest, and prune when the target is overshot or
unreachable. -/
def checkC (cs : List Constraint) (upto : Nat) (a : List Int) : Bool :=
  cs.all fun c =>
    let su := c.ids.foldl
      (fun (su : Int × Nat) vid =>
        if vid ≤ upto then (su.1 + a.getD vid 0, su.2) else (su.1, su.2 + 1))
      ((0 : Int), (0 : Nat))
    decide (su.1 ≤ c.value) && decide (c.value ≤ su.1 + (su.2 : Int))

/-- `solve(idx)`: try 0 then 1 at the current position, recursing on the
surviving branches and collecting every complete assignment (`rem` counts the
positions still to fill, so the recursion is structural). -/
def solveRec (cs : List Constraint) : Nat → Nat → List Int → List (List Int)
  | _, 0, a => [a]
  | idx, rem + 1, a =>
    let a0 := a.set idx 0
    let s0 := if checkC cs idx a0 then solveRec cs (idx + 1) rem a0 else []
    let a1 := a.set idx 1
    let s1 := if checkC cs idx a1 then solveRec cs (idx + 1) rem a1 else []
    s0 ++ s1

/-- All consistent 0/1 assignments of one component. -/
def solveComp (cs : List Constraint) (len : Nat) : List (List Int) :=
  solveRec cs 0 len (List.replicate len 0)

/-- The outer component loop: skip visited ids, traverse the component,
enumerate its solutions, and return `false` as soon as some variable is 0 in
every solution of a component with solutions. -/
def compLoop (constraints : List Constraint) (adj : List (List Nat))
    (numVars : Nat) : List Nat → List Bool → Option Bool
  | [], _ => some true
  | i :: rest, visited =>
    if visited.getD i false then compLoop constraints adj numVars rest visited
    else
      match bfsF adj (numVars + 1) [i] (visited.set i true) [] with
      | none => none
      | some cv =>
        let cs := compConstraints constraints cv.1
        let sols := solveComp cs cv.1.length
        if sols.length = 0 then
          compLoop constraints adj numVars rest cv.2
        else if (List.range cv.1.length).any
            (fun j => sols.all (fun sol => !decide (sol.getD j 0 = 1))) then
          some false
        else compLoop constraints adj numVars rest cv.2

/-- `isAmbiguous(w, h, isVisible, get)`.  `none` marks an exhausted traversal
budget; the termination theorem shows the budget `numVars + 1` always
suffices. -/
def isAmbiguous (w h : Int) (isVisible : Int → Int → Bool)
    (get : Int → Int → Tile) : Option Bool :=
  let s := scanBoard w h isVisible get
  if s.safeFound then some false
  else if s.constraints.isEmpty then
    if !s.hasVisible then some false
    else if (board w h).any (fun p => !isVisible p.1 p.2) then some true
    else some false
  else
    let numVars := s.keys.length
    compLoop s.constraints (buildAdj numVars s.constraints) numVars
      (List.range numVars) (List.replicate numVars false)

/-! ### Faithfulness checks: the scenarios of the repository's solver test
suite (`src/core/game.test.js`, "Solver (isAmbiguous)" describe block),
evaluated on the embedding. -/

/-- "1-1 pattern on corner" (2×2, top row `1 1` visible): ambiguous. -/
theorem solver_test_corner :
    isAmbiguous 2 2 (fun _ y => decide (y = 0))
      (fun x y => if y = 0 then .num 1 else if x = 0 then .mine else .emp)
      = some true := by decide

/-- "1-2-1 pattern" (3×2, `1 2 1` visible over `M E M`): not ambiguous. -/
theorem solver_test_121 :
    isAmbiguous 3 2 (fun _ y => decide (y = 0))
      (fun x y =>
        if y = 0 then (if x = 1 then .num 2 else .num 1)
        else (if x = 1 then .emp else .mine))
      = some false := by decide

/-- "1-1 with extra neighbour" (3×2, `1 1 .` visible): not ambiguous. -/
theorem solver_test_11extra :
    isAmbiguous 3 2 (fun _ y => decide (y = 0))
      (fun x y =>
        if y = 0 then (if x = 2 then .emp else .num 1)
        else (if x = 0 then .mine else .emp))
      = some false := by decide

/-- "no tiles visible": not ambiguous. -/
theorem solver_test_noVisible :
    isAmbiguous 2 2 (fun _ _ => false) (fun _ _ => .emp) = some false := by
  decide

/-- "all non-mine tiles visible" (1×1 cleared): not ambiguous. -/
theorem solver_test_cleared :
    isAmbiguous 1 1 (fun _ _ => true) (fun _ _ => .emp) = some false := by
  decide

/-- "only mines can be deduced" (1×2, `1` over a hidden mine): ambiguous. -/
theorem solver_test_forcedMine :
    isAmbiguous 1 2 (fun _ y => decide (y = 0))
      (fun _ y => if y = 0 then .num 1 else .mine) = some true := by decide

/-- C6 (counterexample): on the 5×1 row `1 M 1 . .` with the three stated
cells revealed, `isAmbiguous` does NOT return `true`: the visible `1` at
(2,0) already sees its mine at (1,0), so `remaining == 0` forces its hidden
neighbour (3,0) safe and the solver returns `false` at step 1. -/
theorem isAmbiguous_row_cex :
    isAmbiguous 5 1 (fun x _ => decide (x ≤ 2))
      (fun x _ =>
        if x = 0 then .num 1 else if x = 1 then .mine
        else if x = 2 then .num 1 else .emp) ≠ some true := by decide

/-- C6 (amended): on that scenario `isAmbiguous` returns `false`. -/
theorem isAmbiguous_row :
    isAmbiguous 5 1 (fun x _ => decide (x ≤ 2))
      (fun x _ =>
        if x = 0 then .num 1 else if x = 1 then .mine
        else if x = 2 then .num 1 else .emp) = some false := by decide

/-! ## Terminal-state determination (`Game.isGameOver` in part_005)

The scan returns `LOSS` on the first visible mine; otherwise the game is
`WIN` when every non-mine cell is visible or the solver reports the position
ambiguous, and `GAMING` otherwise. -/

/-- The tri-state result of `Game.isGameOver`. -/
inductive Status where
  | gaming : Status
  | loss : Status
  | win : Status
deriving DecidableEq, Repr

/-- The cell scan of `isGameOver`: early `LOSS` on a visible mine, else the
running all-non-mines-visible flag. -/
def overScan (isVisible : Int → Int → Bool) (get : Int → Int → Tile) :
    List (Int × Int) → Bool → Except Unit Bool
  | [], win => .ok win
  | p :: rest, win =>
    let t := get p.1 p.2
    let v := isVisible p.1 p.2
    if v && decide (t = Tile.mine) then .error ()
    else overScan isVisible get rest
      (win && !(!v && decide (t ≠ Tile.mine)))

/-- `Game.isGameOver()` from part_005 (`none` only if the solver budget were
to run out, which the termination theorem rules out). -/
def isGameOver (w h : Int) (isVisible : Int → Int → Bool)
    (get : Int → Int → Tile) : Option Status :=
  match overScan isVisible get (board w h) true with
  | .error () => some .loss
  | .ok win =>
    if win then some .win
    else
      match isAmbiguous w h isVisible get with
      | none => none
      | some true => some .win
      | some false => some .gaming

theorem overScan_char (isVisible : Int → Int → Bool) (get : Int → Int → Tile)
    (L : List (Int × Int)) (w0 : Bool) :
    overScan isVisible get L w0 =
      if L.any (fun p => isVisible p.1 p.2 && decide (get p.1 p.2 = Tile.mine))
      then .error ()
      else .ok (w0 && L.all (fun p =>
        isVisible p.1 p.2 || decide (get p.1 p.2 = Tile.mine))) := by
  induction L generalizing w0 with
  | nil => simp [overScan]
  | cons p rest ih =>
    simp only [overScan, List.any_cons, List.all_cons]
    by_cases hpm : (isVisible p.1 p.2 && decide (get p.1 p.2 = Tile.mine)) = true
    · simp [hpm]
    · simp only [Bool.not_eq_true] at hpm
      rw [ih]
      by_cases hrest : rest.any (fun p =>
          isVisible p.1 p.2 && decide (get p.1 p.2 = Tile.mine)) = true
      · simp [hpm, hrest]
      · simp only [Bool.not_eq_true] at hrest
        simp only [hpm, hrest, Bool.false_or, if_false]
        congr 1
        cases hv : isVisible p.1 p.2 <;>
          cases hm : decide (get p.1 p.2 = Tile.mine) <;>
            simp_all [Bool.and_assoc]

/-- C3 (amended): `isGameOver` consults the ambiguity check whenever the
position is neither a loss nor fully cleared — for every board size, with no
area cap: `Loss` on any visible mine, else `Win` when cleared, else `Win`
exactly when the solver reports the position ambiguous and `Gaming`
otherwise. -/
theorem isGameOver_char (w h : Int) (isVisible : Int → Int → Bool)
    (get : Int → Int → Tile) :
    isGameOver w h isVisible get =
      if (board w h).any (fun p =>
          isVisible p.1 p.2 && decide (get p.1 p.2 = Tile.mine))
      then some .loss
      else if (board w h).all (fun p =>
          isVisible p.1 p.2 || decide (get p.1 p.2 = Tile.mine))
      then some .win
      else (isAmbiguous w h isVisible get).map
        (fun b => if b then .win else .gaming) := by
  unfold isGameOver
  rw [overScan_char]
  by_cases hl : (board w h).any (fun p =>
      isVisible p.1 p.2 && decide (get p.1 p.2 = Tile.mine)) = true
  · simp [hl]
  · simp only [Bool.not_eq_true] at hl
    simp only [hl, if_false, Bool.true_and]
    by_cases hw : (board w h).all (fun p =>
        isVisible p.1 p.2 || decide (get p.1 p.2 = Tile.mine)) = true
    · simp [hw]
    · simp only [Bool.not_eq_true] at hw
      simp only [hw, if_false, Bool.false_eq_true]
      cases hamb : isAmbiguous w h isVisible get with
      | none => rfl
      | some b => cases b <;> simp

/-! ## Semantics of the solver's constraints

A mine assignment of the hidden cells is *consistent* when every visible
`Number(n)` cell sees exactly `n - (visible mine neighbours)` mines among its
hidden neighbours — the constraints the spec says the visible Number tiles
impose. -/

/-- A mine assignment `m` of the hidden cells is consistent with the visible
information. -/
def Consistent (w h : Int) (isVisible : Int → Int → Bool)
    (get : Int → Int → Tile) (m : Int × Int → Bool) : Prop :=
  ∀ x y, oob w h x y = false → isVisible x y = true →
    ∀ n, get x y = Tile.num n →
      (((hiddenNeighbors w h isVisible x y).filter m).length : Int)
        = (n : Int) - (minesAround w h isVisible get x y : Int)

/-- Some hidden in-bounds cell is safe under every consistent assignment. -/
def SafeExists (w h : Int) (isVisible : Int → Int → Bool)
    (get : Int → Int → Tile) : Prop :=
  ∃ p : Int × Int, oob w h p.1 p.2 = false ∧ isVisible p.1 p.2 = false
    ∧ ∀ m, Consistent w h isVisible get m → m p = false

/-! ### The backtracking enumeration is complete

Every 0/1 vector satisfying all of a component's constraints is collected by
`solveRec`: the pruning tests are necessary conditions, so the branch that
follows a satisfying vector is never cut. -/

/-- Entries of an assignment vector are 0 or 1. -/
def Bits01 (x : List Int) : Prop := ∀ v ∈ x, v = 0 ∨ v = 1

/-- A vector satisfies a constraint set when every constraint's ids sum to
its target. -/
def SatC (cs : List Constraint) (x : List Int) : Prop :=
  ∀ c ∈ cs, ((c.ids.map (fun vid => x.getD vid 0)).sum = c.value)

theorem check_foldl (ids : List Nat) (upto : Nat) (a : List Int)
    (s0 : Int) (u0 : Nat) :
    ids.foldl
      (fun (su : Int × Nat) vid =>
        if vid ≤ upto then (su.1 + a.getD vid 0, su.2) else (su.1, su.2 + 1))
      (s0, u0)
      = (s0 + ((ids.filter (fun vid => decide (vid ≤ upto))).map
            (fun vid => a.getD vid 0)).sum,
         u0 + (ids.filter (fun vid => !decide (vid ≤ upto))).length) := by
  induction ids generalizing s0 u0 with
  | nil => simp
  | cons v rest ih =>
    have h1 : List.filter (fun vid => decide (vid ≤ upto)) (v :: rest)
        = if v ≤ upto then v :: List.filter (fun vid => decide (vid ≤ upto)) rest
          else List.filter (fun vid => decide (vid ≤ upto)) rest := by
      by_cases hv : v ≤ upto <;> simp [List.filter_cons, hv]
    have h2 : List.filter (fun vid => !decide (vid ≤ upto)) (v :: rest)
        = if v ≤ upto then List.filter (fun vid => !decide (vid ≤ upto)) rest
          else v :: List.filter (fun vid => !decide (vid ≤ upto)) rest := by
      by_cases hv : v ≤ upto <;> simp [List.filter_cons, hv]
    by_cases hv : v ≤ upto
    · simp only [List.foldl_cons, if_pos hv]
      rw [ih, h1, h2, if_pos hv, if_pos hv]
      simp only [List.map_cons, List.sum_cons, Prod.mk.injEq, and_true,
        true_and]
      omega
    · simp only [List.foldl_cons, if_neg hv]
      rw [ih, h1, h2, if_neg hv, if_neg hv]
      simp only [List.length_cons, Prod.mk.injEq, and_true, true_and]
      omega

/-- `check(upto)` in terms of the prefix sum and the unassigned count. -/
theorem checkC_iff (cs : List Constraint) (upto : Nat) (a : List Int) :
    checkC cs upto a = true ↔ ∀ c ∈ cs,
      ((c.ids.filter (fun vid => decide (vid ≤ upto))).map
          (fun vid => a.getD vid 0)).sum ≤ c.value
      ∧ c.value ≤ ((c.ids.filter (fun vid => decide (vid ≤ upto))).map
          (fun vid => a.getD vid 0)).sum
        + ((c.ids.filter (fun vid => !decide (vid ≤ upto))).length : Int) := by
  unfold checkC
  rw [List.all_eq_true]
  constructor
  · intro hall c hc
    have := hall c hc
    rw [check_foldl] at this
    simp only [Int.zero_add, Nat.zero_add, Bool.and_eq_true,
      decide_eq_true_eq] at this
    exact this
  · intro hall c hc
    rw [check_foldl]
    simp only [Int.zero_add, Nat.zero_add, Bool.and_eq_true,
      decide_eq_true_eq]
    exact hall c hc

theorem sum_split (ids : List Nat) (upto : Nat) (f : Nat → Int) :
    ((ids.filter (fun vid => decide (vid ≤ upto))).map f).sum
      + ((ids.filter (fun vid => !decide (vid ≤ upto))).map f).sum
      = (ids.map f).sum := by
  induction ids with
  | nil => simp
  | cons v rest ih =>
    have h1 : List.filter (fun vid => decide (vid ≤ upto)) (v :: rest)
        = if v ≤ upto then v :: List.filter (fun vid => decide (vid ≤ upto)) rest
          else List.filter (fun vid => decide (vid ≤ upto)) rest := by
      by_cases hv : v ≤ upto <;> simp [List.filter_cons, hv]
    have h2 : List.filter (fun vid => !decide (vid ≤ upto)) (v :: rest)
        = if v ≤ upto then List.filter (fun vid => !decide (vid ≤ upto)) rest
          else v :: List.filter (fun vid => !decide (vid ≤ upto)) rest := by
      by_cases hv : v ≤ upto <;> simp [List.filter_cons, hv]
    rw [h1, h2]
    by_cases hv : v ≤ upto
    · rw [if_pos hv, if_pos hv]
      simp only [List.map_cons, List.sum_cons]
      omega
    · rw [if_neg hv, if_neg hv]
      simp only [List.map_cons, List.sum_cons]
      omega

theorem sum_nonneg_of_bits (l : List Nat) (f : Nat → Int)
    (h0 : ∀ v ∈ l, 0 ≤ f v) : 0 ≤ (l.map f).sum := by
  induction l with
  | nil => simp
  | cons v rest ih =>
    simp only [List.map_cons, List.sum_cons]
    have h1 := h0 v (List.mem_cons_self v rest)
    have h2 := ih (fun u hu => h0 u (List.mem_cons_of_mem v hu))
    omega

theorem sum_le_length_of_bits (l : List Nat) (f : Nat → Int)
    (h1 : ∀ v ∈ l, f v ≤ 1) : (l.map f).sum ≤ (l.length : Int) := by
  induction l with
  | nil => simp
  | cons v rest ih =>
    simp only [List.map_cons, List.sum_cons, List.length_cons]
    have h2 := h1 v (List.mem_cons_self v rest)
    have h3 := ih (fun u hu => h1 u (List.mem_cons_of_mem v hu))
    omega

theorem bits01_getD_cases (x : List Int) (hx : Bits01 x) (vid : Nat) :
    x.getD vid 0 = 0 ∨ x.getD vid 0 = 1 := by
  by_cases hv : vid < x.length
  · rw [List.getD_eq_getElem x 0 hv]
    exact hx _ (List.getElem_mem hv)
  · rw [List.getD_eq_default x 0 (by omega)]
    exact Or.inl rfl

theorem getD_set_self {α : Type} (l : List α) (i : Nat) (v d : α)
    (hi : i < l.length) : (l.set i v).getD i d = v := by
  rw [List.getD_eq_getElem _ _ (by rw [List.length_set]; exact hi)]
  exact List.getElem_set_self _

theorem getD_set_ne {α : Type} (l : List α) (i j : Nat) (v d : α)
    (hij : i ≠ j) : (l.set i v).getD j d = l.getD j d := by
  by_cases hj : j < l.length
  · rw [List.getD_eq_getElem _ _ (by rw [List.length_set]; exact hj),
      List.getElem_set_ne hij, List.getD_eq_getElem _ _ hj]
  · rw [List.getD_eq_default _ _ (by rw [List.length_set]; omega),
      List.getD_eq_default _ _ (by omega)]

/-- The backtracking search collects every satisfying 0/1 vector: the branch
following such a vector passes every `check` and is never pruned. -/
theorem solveRec_complete (cs : List Constraint) (len : Nat)
    (x : List Int) (hlen : x.length = len) (hbits : Bits01 x)
    (hsat : SatC cs x) :
    ∀ (rem idx : Nat) (a : List Int), idx + rem = len → a.length = len →
      (∀ k, k < idx → a.getD k 0 = x.getD k 0) →
      x ∈ solveRec cs idx rem a := by
  intro rem
  induction rem with
  | zero =>
    intro idx a hidx hal hagree
    have hax : a = x := by
      apply List.ext_getElem (by omega)
      intro i h1 h2
      have hi := hagree i (by omega)
      rwa [List.getD_eq_getElem a 0 h1, List.getD_eq_getElem x 0 h2] at hi
    simp [solveRec, hax]
  | succ rem ih =>
    intro idx a hidx hal hagree
    have hidxlen : idx < len := by omega
    have hagree_b : ∀ b : Int, b = x.getD idx 0 →
        ∀ k, k < idx + 1 → (a.set idx b).getD k 0 = x.getD k 0 := by
      intro b hbx k hk
      by_cases hki : k = idx
      · subst hki
        rw [getD_set_self a k b 0 (by omega)]
        exact hbx
      · rw [getD_set_ne a idx k b 0 (fun hc => hki hc.symm)]
        exact hagree k (by omega)
    have hcheck : ∀ b : Int, b = x.getD idx 0 →
        checkC cs idx (a.set idx b) = true := by
      intro b hbx
      rw [checkC_iff]
      intro c hc
      have hpref : ((c.ids.filter (fun vid => decide (vid ≤ idx))).map
            (fun vid => (a.set idx b).getD vid 0)).sum
          = ((c.ids.filter (fun vid => decide (vid ≤ idx))).map
            (fun vid => x.getD vid 0)).sum := by
        apply congrArg
        apply List.map_congr_left
        intro vid hvid
        have hle : vid ≤ idx := by
          have := List.of_mem_filter hvid
          simpa using this
        exact hagree_b b hbx vid (by omega)
      have hsum := hsat c hc
      have hsplit := sum_split c.ids idx (fun vid => x.getD vid 0)
      have hrest0 : 0 ≤ ((c.ids.filter (fun vid => !decide (vid ≤ idx))).map
          (fun vid => x.getD vid 0)).sum :=
        sum_nonneg_of_bits _ _ (fun v _ => by
          rcases bits01_getD_cases x hbits v with hv | hv <;> omega)
      have hrest1 : ((c.ids.filter (fun vid => !decide (vid ≤ idx))).map
            (fun vid => x.getD vid 0)).sum
          ≤ ((c.ids.filter (fun vid => !decide (vid ≤ idx))).length : Int) :=
        sum_le_length_of_bits _ _ (fun v _ => by
          rcases bits01_getD_cases x hbits v with hv | hv <;> omega)
      rw [hpref]
      omega
    have hb := bits01_getD_cases x hbits idx
    rcases hb with hb0 | hb1
    · have hmem := ih (idx + 1) (a.set idx 0) (by omega)
        (by rw [List.length_set]; exact hal) (hagree_b 0 hb0.symm)
      simp only [solveRec]
      rw [if_pos (hcheck 0 hb0.symm)]
      exact List.mem_append_left _ hmem
    · have hmem := ih (idx + 1) (a.set idx 1) (by omega)
        (by rw [List.length_set]; exact hal) (hagree_b 1 hb1.symm)
      simp only [solveRec]
      rw [if_pos (hcheck 1 hb1.symm)]
      exact List.mem_append_right _ hmem

theorem solveComp_complete (cs : List Constraint) (len : Nat) (x : List Int)
    (hlen : x.length = len) (hbits : Bits01 x) (hsat : SatC cs x) :
    x ∈ solveComp cs len := by
  apply solveRec_complete cs len x hlen hbits hsat len 0 _ (by omega)
    (by simp)
  intro k hk
  omega

/-! ### The key table (`hiddenTileToId` / `idToHiddenTile`) -/

theorem indexOf?_some_getD {α : Type} [BEq α] [LawfulBEq α]
    (l : List α) (c : α) (d : α) :
    ∀ i, l.indexOf? c = some i → i < l.length ∧ l.getD i d = c := by
  induction l with
  | nil => intro i h; simp [List.indexOf?, List.findIdx?] at h
  | cons a rest ih =>
    intro i h
    rw [List.indexOf?_cons] at h
    by_cases hac : (a == c) = true
    · rw [if_pos hac] at h
      injection h with h
      subst h
      exact ⟨by simp, by simpa using eq_of_beq hac⟩
    · rw [if_neg hac] at h
      cases hrest : List.indexOf? c rest with
      | none => rw [hrest] at h; cases h
      | some j =>
        rw [hrest] at h
        injection h with h
        subst h
        obtain ⟨hj1, hj2⟩ := ih j hrest
        exact ⟨by simp; omega, by simpa using hj2⟩

theorem internOne_spec (keys : List (Int × Int)) (c : Int × Int) :
    (∃ ext, (internOne keys c).1 = keys ++ ext ∧ (ext = [] ∨ ext = [c]))
    ∧ (internOne keys c).2 < (internOne keys c).1.length
    ∧ (internOne keys c).1.getD (internOne keys c).2 (0, 0) = c := by
  unfold internOne
  cases hio : keys.indexOf? c with
  | some i =>
    obtain ⟨h1, h2⟩ := indexOf?_some_getD keys c (0, 0) i hio
    exact ⟨⟨[], by simp, Or.inl rfl⟩, h1, h2⟩
  | none =>
    refine ⟨⟨[c], rfl, Or.inr rfl⟩, by simp, ?_⟩
    rw [List.getD_append_right _ _ _ _ (le_refl _)]
    simp

theorem internList_spec (cells : List (Int × Int)) :
    ∀ keys : List (Int × Int),
    (∃ ext, (internList keys cells).1 = keys ++ ext ∧ ∀ e ∈ ext, e ∈ cells)
    ∧ List.Forall₂
        (fun id cell => id < (internList keys cells).1.length
          ∧ (internList keys cells).1.getD id (0, 0) = cell)
        (internList keys cells).2 cells := by
  induction cells with
  | nil => intro keys; exact ⟨⟨[], by simp [internList], by simp⟩, by
      simp [internList]⟩
  | cons c rest ih =>
    intro keys
    obtain ⟨⟨ext1, hext1, hext1c⟩, hlt1, hget1⟩ := internOne_spec keys c
    obtain ⟨⟨ext2, hext2, hext2c⟩, hf2⟩ := ih (internOne keys c).1
    have hkeys : (internList keys (c :: rest)).1
        = (internList (internOne keys c).1 rest).1 := rfl
    have hids : (internList keys (c :: rest)).2
        = (internOne keys c).2 :: (internList (internOne keys c).1 rest).2 :=
      rfl
    constructor
    · refine ⟨ext1 ++ ext2, ?_, ?_⟩
      · rw [hkeys, hext2, hext1, List.append_assoc]
      · intro e he
        rcases List.mem_append.mp he with h | h
        · rcases hext1c with rfl | rfl
          · cases h
          · rw [List.mem_singleton] at h
            exact h ▸ List.mem_cons_self c rest
        · exact List.mem_cons_of_mem c (hext2c e h)
    · rw [hkeys, hids]
      refine List.Forall₂.cons ⟨?_, ?_⟩ ?_
      · rw [hext2, List.length_append]
        omega
      · rw [hext2, List.getD_append _ _ _ _ hlt1]
        exact hget1
      · exact hf2

/-- The length of a filtered list as the sum of indicator values. -/
theorem filter_length_eq_sum (m : Int × Int → Bool) (l : List (Int × Int)) :
    ((l.filter m).length : Int)
      = (l.map (fun c => if m c then (1 : Int) else 0)).sum := by
  induction l with
  | nil => simp
  | cons c rest ih =>
    rw [List.filter_cons]
    by_cases hc : m c = true
    · simp only [hc, if_true, List.length_cons, List.map_cons, List.sum_cons]
      omega
    · simp only [hc, Bool.false_eq_true, if_false, List.map_cons,
        List.sum_cons]
      omega

/-- Summing the indicator through the key table equals summing it over the
interned cells. -/
theorem forall2_ind_sum (keysF : List (Int × Int)) (m : Int × Int → Bool)
    (ids : List Nat) (cells : List (Int × Int))
    (hf : List.Forall₂
      (fun id cell => id < keysF.length ∧ keysF.getD id (0, 0) = cell)
      ids cells) :
    (ids.map (fun id => if m (keysF.getD id (0, 0)) then (1 : Int) else 0)).sum
      = ((cells.filter m).length : Int) := by
  rw [filter_length_eq_sum]
  induction hf with
  | nil => simp
  | cons hpc _ ih =>
    simp only [List.map_cons, List.sum_cons, ih, hpc.2]

theorem forall2_mem_left {α β : Type} {R : α → β → Prop} {l : List α}
    {l' : List β} (hf : List.Forall₂ R l l') :
    ∀ a ∈ l, ∃ b ∈ l', R a b := by
  induction hf with
  | nil => intro a ha; cases ha
  | cons hpc _ ih =>
    intro a ha
    rcases List.mem_cons.mp ha with rfl | ha'
    · exact ⟨_, List.mem_cons_self _ _, hpc⟩
    · obtain ⟨b, hb, hr⟩ := ih a ha'
      exact ⟨b, List.mem_cons_of_mem _ hb, hr⟩

/-! ### Invariants of the constraint-building scan -/

/-- What the scan guarantees for each collected constraint: ids index the key
table, and under every consistent assignment the indicator sum over the
constraint's cells equals its target. -/
def ConstraintSound (w h : Int) (isVisible : Int → Int → Bool)
    (get : Int → Int → Tile) (keys : List (Int × Int)) (c : Constraint) :
    Prop :=
  (∀ id ∈ c.ids, id < keys.length)
  ∧ ∀ m, Consistent w h isVisible get m →
      (c.ids.map
        (fun id => if m (keys.getD id (0, 0)) then (1 : Int) else 0)).sum
        = c.value

/-- Every key-table entry is an in-bounds hidden cell. -/
def KeysInv (w h : Int) (isVisible : Int → Int → Bool)
    (keys : List (Int × Int)) : Prop :=
  ∀ k, k < keys.length →
    oob w h (keys.getD k (0, 0)).1 (keys.getD k (0, 0)).2 = false
    ∧ isVisible (keys.getD k (0, 0)).1 (keys.getD k (0, 0)).2 = false

/-- What an early `return false` during the scan attests: some visible Number
cell with hidden neighbours has all of its remaining mines accounted for. -/
def SafeWitness (w h : Int) (isVisible : Int → Int → Bool)
    (get : Int → Int → Tile) : Prop :=
  ∃ x y, oob w h x y = false ∧ isVisible x y = true
    ∧ ∃ n, get x y = Tile.num n
      ∧ hiddenNeighbors w h isVisible x y ≠ []
      ∧ (n : Int) - (minesAround w h isVisible get x y : Int) = 0

/-- The scan invariant. -/
def ScanInv (w h : Int) (isVisible : Int → Int → Bool)
    (get : Int → Int → Tile) (s : ScanState) : Prop :=
  KeysInv w h isVisible s.keys
  ∧ (∀ c ∈ s.constraints, ConstraintSound w h isVisible get s.keys c)
  ∧ (s.safeFound = true → SafeWitness w h isVisible get)

theorem constraintSound_extend (w h : Int) (isVisible : Int → Int → Bool)
    (get : Int → Int → Tile) (keys ext : List (Int × Int)) (c : Constraint)
    (hc : ConstraintSound w h isVisible get keys c) :
    ConstraintSound w h isVisible get (keys ++ ext) c := by
  obtain ⟨hids, hsum⟩ := hc
  constructor
  · intro id hid
    have := hids id hid
    rw [List.length_append]
    omega
  · intro m hm
    rw [← hsum m hm]
    apply congrArg
    apply List.map_congr_left
    intro id hid
    rw [List.getD_append _ _ _ _ (hids id hid)]

theorem keysInv_extend (w h : Int) (isVisible : Int → Int → Bool)
    (keys ext : List (Int × Int))
    (hk : KeysInv w h isVisible keys)
    (he : ∀ e ∈ ext, oob w h e.1 e.2 = false ∧ isVisible e.1 e.2 = false) :
    KeysInv w h isVisible (keys ++ ext) := by
  intro k hkl
  by_cases hsm : k < keys.length
  · rw [List.getD_append _ _ _ _ hsm]
    exact hk k hsm
  · rw [List.getD_append_right _ _ _ _ (by omega)]
    rw [List.length_append] at hkl
    have hkk : k - keys.length < ext.length := by omega
    rw [List.getD_eq_getElem _ _ hkk]
    exact he _ (List.getElem_mem hkk)

/-- Membership in `hiddenNeighbors` means in-bounds and hidden. -/
theorem hiddenNeighbors_mem (w h : Int) (isVisible : Int → Int → Bool)
    (x y : Int) (p : Int × Int)
    (hp : p ∈ hiddenNeighbors w h isVisible x y) :
    oob w h p.1 p.2 = false ∧ isVisible p.1 p.2 = false := by
  have := List.of_mem_filter hp
  simp only [Bool.and_eq_true, Bool.not_eq_true'] at this
  exact this

theorem scanCell_inv (w h : Int) (isVisible : Int → Int → Bool)
    (get : Int → Int → Tile) (p : Int × Int)
    (hp : oob w h p.1 p.2 = false) (s : ScanState)
    (hs : ScanInv w h isVisible get s) :
    ScanInv w h isVisible get (scanCell w h isVisible get s p) := by
  obtain ⟨hkeys, hcons, hsafe⟩ := hs
  unfold scanCell
  by_cases hsf : s.safeFound = true
  · rw [if_pos hsf]; exact ⟨hkeys, hcons, hsafe⟩
  · rw [if_neg hsf]
    by_cases hv : isVisible p.1 p.2 = true
    · rw [if_pos hv]
      rcases hg : get p.1 p.2 with _ | _ | n
      · exact ⟨hkeys, hcons, hsafe⟩
      · exact ⟨hkeys, hcons, hsafe⟩
      · by_cases hhn : (hiddenNeighbors w h isVisible p.1 p.2).isEmpty = true
        · simp only [hhn, if_true]
          exact ⟨hkeys, hcons, hsafe⟩
        · simp only [hhn, Bool.false_eq_true, if_false]
          by_cases hrem : ((n : Int)
              - (minesAround w h isVisible get p.1 p.2 : Int)) = 0
          · rw [if_pos hrem]
            refine ⟨hkeys, hcons, fun _ => ?_⟩
            exact ⟨p.1, p.2, hp, hv, n, hg,
              by simpa [List.isEmpty_iff] using hhn, hrem⟩
          · rw [if_neg hrem]
            obtain ⟨⟨ext, hext, hextc⟩, hf2⟩ :=
              internList_spec (hiddenNeighbors w h isVisible p.1 p.2) s.keys
            refine ⟨?_, ?_, hsafe⟩
            · rw [hext]
              apply keysInv_extend w h isVisible s.keys ext hkeys
              intro e he
              exact hiddenNeighbors_mem w h isVisible p.1 p.2 e (hextc e he)
            · intro c hc
              rcases List.mem_append.mp hc with hold | hnew
              · rw [hext]
                exact constraintSound_extend w h isVisible get s.keys ext c
                  (hcons c hold)
              · rw [List.mem_singleton] at hnew
                subst hnew
                constructor
                · intro id hid
                  obtain ⟨cell, _, hr⟩ := forall2_mem_left hf2 id hid
                  exact hr.1
                · intro m hm
                  have hsum := forall2_ind_sum _ m _ _ hf2
                  rw [hsum]
                  have hcm := hm p.1 p.2 hp hv n hg
                  dsimp only
                  omega
    · rw [if_neg hv]
      exact ⟨hkeys, hcons, hsafe⟩

theorem scanFold_inv (w h : Int) (isVisible : Int → Int → Bool)
    (get : Int → Int → Tile) :
    ∀ (L : List (Int × Int)), (∀ p ∈ L, oob w h p.1 p.2 = false) →
    ∀ s, ScanInv w h isVisible get s →
      ScanInv w h isVisible get (L.foldl (scanCell w h isVisible get) s) := by
  intro L
  induction L with
  | nil => intro _ s hs; exact hs
  | cons p rest ih =>
    intro hL s hs
    rw [List.foldl_cons]
    exact ih (fun q hq => hL q (List.mem_cons_of_mem p hq)) _
      (scanCell_inv w h isVisible get p (hL p (List.mem_cons_self p rest))
        s hs)

theorem scanBoard_inv (w h : Int) (isVisible : Int → Int → Bool)
    (get : Int → Int → Tile) :
    ScanInv w h isVisible get (scanBoard w h isVisible get) := by
  apply scanFold_inv w h isVisible get (board w h)
    (fun p hp => (mem_board w h p.1 p.2).mp (by simpa using hp))
  refine ⟨?_, ?_, ?_⟩
  · intro k hk; cases hk
  · intro c hc; cases hc
  · intro hc; cases hc

theorem scanCell_safeFound_true (w h : Int) (isVisible : Int → Int → Bool)
    (get : Int → Int → Tile) (s : ScanState) (p : Int × Int)
    (hs : s.safeFound = true) : scanCell w h isVisible get s p = s := by
  unfold scanCell
  rw [if_pos hs]

theorem scanFold_safeFound_mono (w h : Int) (isVisible : Int → Int → Bool)
    (get : Int → Int → Tile) :
    ∀ (L : List (Int × Int)) (s : ScanState), s.safeFound = true →
      (L.foldl (scanCell w h isVisible get) s).safeFound = true := by
  intro L
  induction L with
  | nil => intro s hs; exact hs
  | cons p rest ih =>
    intro s hs
    rw [List.foldl_cons, scanCell_safeFound_true w h isVisible get s p hs]
    exact ih s hs

theorem scanCell_hasVisible (w h : Int) (isVisible : Int → Int → Bool)
    (get : Int → Int → Tile) (s : ScanState) (p : Int × Int)
    (hs : s.safeFound = false) :
    (scanCell w h isVisible get s p).hasVisible
      = (s.hasVisible || isVisible p.1 p.2) := by
  unfold scanCell
  rw [if_neg (by simp [hs])]
  by_cases hv : isVisible p.1 p.2 = true
  · rw [if_pos hv, hv, Bool.or_true]
    rcases hg : get p.1 p.2 with _ | _ | n
    · rfl
    · rfl
    · by_cases hhn : (hiddenNeighbors w h isVisible p.1 p.2).isEmpty = true
      · simp only [hhn, if_true]
      · simp only [hhn, Bool.false_eq_true, if_false]
        by_cases hrem : ((n : Int)
            - (minesAround w h isVisible get p.1 p.2 : Int)) = 0
        · rw [if_pos hrem]
        · rw [if_neg hrem]
  · rw [if_neg hv, Bool.not_eq_true] at *
    rw [hv, Bool.or_false]

theorem scanFold_hasVisible (w h : Int) (isVisible : Int → Int → Bool)
    (get : Int → Int → Tile) :
    ∀ (L : List (Int × Int)) (s : ScanState),
      (L.foldl (scanCell w h isVisible get) s).safeFound = false →
      (L.foldl (scanCell w h isVisible get) s).hasVisible
        = (s.hasVisible || L.any (fun p => isVisible p.1 p.2)) := by
  intro L
  induction L with
  | nil => intro s _; simp
  | cons p rest ih =>
    intro s hsf
    rw [List.foldl_cons] at hsf ⊢
    by_cases hs : s.safeFound = true
    · rw [scanCell_safeFound_true w h isVisible get s p hs] at hsf
      rw [scanFold_safeFound_mono w h isVisible get rest s hs] at hsf
      cases hsf
    · rw [Bool.not_eq_true] at hs
      have hhv := scanCell_hasVisible w h isVisible get s p hs
      rw [ih _ hsf, hhv, List.any_cons]
      cases s.hasVisible <;> cases isVisible p.1 p.2 <;> simp

theorem scanBoard_hasVisible (w h : Int) (isVisible : Int → Int → Bool)
    (get : Int → Int → Tile)
    (hsf : (scanBoard w h isVisible get).safeFound = false) :
    (scanBoard w h isVisible get).hasVisible
      = (board w h).any (fun p => isVisible p.1 p.2) := by
  have := scanFold_hasVisible w h isVisible get (board w h) ⟨[], [], false, false⟩ hsf
  simpa using this

/-! ### The constraint graph -/

theorem set_eq_of_length_le {α : Type} (l : List α) (n : Nat) (v : α)
    (h : l.length ≤ n) : l.set n v = l := by
  induction l generalizing n with
  | nil => rfl
  | cons a rest ih =>
    cases n with
    | zero => simp at h
    | succ n =>
      simp only [List.set_cons_succ]
      rw [ih n (by simpa using h)]

theorem pushEdge_length (adj : List (List Nat)) (u v : Nat) :
    (pushEdge adj u v).length = adj.length := by
  unfold pushEdge
  split
  · rfl
  · exact List.length_set ..

theorem edgeStep_length (adj : List (List Nat)) (uv : Nat × Nat) :
    (edgeStep adj uv).length = adj.length := by
  unfold edgeStep
  rw [pushEdge_length, pushEdge_length]

theorem pushEdge_mono (adj : List (List Nat)) (u v u' v' : Nat)
    (hm : v' ∈ adj.getD u' []) : v' ∈ (pushEdge adj u v).getD u' [] := by
  unfold pushEdge
  split
  · exact hm
  · by_cases hl : u < adj.length
    · by_cases huu : u = u'
      · subst huu
        rw [getD_set_self _ _ _ _ hl]
        exact List.mem_append_left _ hm
      · rw [getD_set_ne _ _ _ _ _ huu]
        exact hm
    · rw [set_eq_of_length_le _ _ _ (by omega)]
      exact hm

theorem pushEdge_adds (adj : List (List Nat)) (u v : Nat)
    (hu : u < adj.length) : v ∈ (pushEdge adj u v).getD u [] := by
  unfold pushEdge
  split
  · next hcont => simpa using hcont
  · rw [getD_set_self _ _ _ _ hu]
    exact List.mem_append_right _ (List.mem_singleton.mpr rfl)

theorem edgeStep_mono (adj : List (List Nat)) (uv : Nat × Nat) (u' v' : Nat)
    (hm : v' ∈ adj.getD u' []) : v' ∈ (edgeStep adj uv).getD u' [] :=
  pushEdge_mono _ _ _ _ _ (pushEdge_mono _ _ _ _ _ hm)

theorem edgeStep_adds (adj : List (List Nat)) (u v : Nat)
    (hu : u < adj.length) (hv : v < adj.length) :
    v ∈ (edgeStep adj (u, v)).getD u [] ∧ u ∈ (edgeStep adj (u, v)).getD v [] := by
  unfold edgeStep
  constructor
  · exact pushEdge_mono _ _ _ _ _ (pushEdge_adds adj u v hu)
  · apply pushEdge_adds
    rw [pushEdge_length]
    exact hv

theorem foldPairs_length (pairs : List (Nat × Nat)) :
    ∀ adj : List (List Nat), (pairs.foldl edgeStep adj).length = adj.length := by
  induction pairs with
  | nil => intro adj; rfl
  | cons uv rest ih =>
    intro adj
    rw [List.foldl_cons, ih, edgeStep_length]

theorem foldPairs_mono (pairs : List (Nat × Nat)) :
    ∀ (adj : List (List Nat)) (u' v' : Nat), v' ∈ adj.getD u' [] →
      v' ∈ (pairs.foldl edgeStep adj).getD u' [] := by
  induction pairs with
  | nil => intro adj u' v' hm; exact hm
  | cons uv rest ih =>
    intro adj u' v' hm
    rw [List.foldl_cons]
    exact ih _ _ _ (edgeStep_mono adj uv u' v' hm)

theorem foldPairs_adds (pairs : List (Nat × Nat)) :
    ∀ (adj : List (List Nat)) (u v : Nat), (u, v) ∈ pairs →
      u < adj.length → v < adj.length →
      v ∈ (pairs.foldl edgeStep adj).getD u []
      ∧ u ∈ (pairs.foldl edgeStep adj).getD v [] := by
  induction pairs with
  | nil => intro adj u v hm; cases hm
  | cons uv rest ih =>
    intro adj u v hm hu hv
    rw [List.foldl_cons]
    rcases List.mem_cons.mp hm with rfl | hr
    · obtain ⟨h1, h2⟩ := edgeStep_adds adj u v hu hv
      exact ⟨foldPairs_mono _ _ _ _ h1, foldPairs_mono _ _ _ _ h2⟩
    · exact ih _ u v hr (by rw [edgeStep_length]; exact hu)
        (by rw [edgeStep_length]; exact hv)

theorem tailPairs_cover (l : List Nat) (u v : Nat)
    (hu : u ∈ l) (hv : v ∈ l) (huv : u ≠ v) :
    (u, v) ∈ tailPairs l ∨ (v, u) ∈ tailPairs l := by
  induction l with
  | nil => cases hu
  | cons a rest ih =>
    simp only [tailPairs, List.mem_append, List.mem_map]
    rcases List.mem_cons.mp hu with rfl | hur
    · left; left
      refine ⟨v, ?_, rfl⟩
      rcases List.mem_cons.mp hv with rfl | hvr
      · exact absurd rfl huv
      · exact hvr
    · rcases List.mem_cons.mp hv with rfl | hvr
      · right; left
        exact ⟨u, hur, rfl⟩
      · rcases ih hur hvr with h | h
        · exact Or.inl (Or.inr h)
        · exact Or.inr (Or.inr h)

theorem buildAdj_length (numVars : Nat) (cs : List Constraint) :
    (buildAdj numVars cs).length = numVars := by
  unfold buildAdj
  have : ∀ (L : List Constraint) (adj : List (List Nat)),
      (L.foldl (fun adj c => (tailPairs c.ids).foldl edgeStep adj) adj).length
        = adj.length := by
    intro L
    induction L with
    | nil => intro adj; rfl
    | cons c rest ih =>
      intro adj
      rw [List.foldl_cons, ih, foldPairs_length]
  rw [this]
  exact List.length_replicate ..

theorem foldCs_mono (L : List Constraint) :
    ∀ (adj : List (List Nat)) (u' v' : Nat), v' ∈ adj.getD u' [] →
      v' ∈ (L.foldl (fun adj c => (tailPairs c.ids).foldl edgeStep adj)
        adj).getD u' [] := by
  induction L with
  | nil => intro adj u' v' hm; exact hm
  | cons c rest ih =>
    intro adj u' v' hm
    rw [List.foldl_cons]
    exact ih _ _ _ (foldPairs_mono _ _ _ _ hm)

/-- Two distinct ids of one collected constraint are adjacent in the built
graph (in both directions). -/
theorem buildAdj_mem (numVars : Nat) (cs : List Constraint)
    (hb : ∀ c ∈ cs, ∀ id ∈ c.ids, id < numVars) :
    ∀ c ∈ cs, ∀ u v : Nat, u ∈ c.ids → v ∈ c.ids → u ≠ v →
      v ∈ (buildAdj numVars cs).getD u [] := by
  unfold buildAdj
  suffices hgen : ∀ (L : List Constraint) (adj : List (List Nat)),
      adj.length = numVars →
      (∀ c ∈ L, ∀ id ∈ c.ids, id < numVars) →
      ∀ c ∈ L, ∀ u v : Nat, u ∈ c.ids → v ∈ c.ids → u ≠ v →
        v ∈ (L.foldl (fun adj c => (tailPairs c.ids).foldl edgeStep adj)
          adj).getD u [] by
    intro c hc u v hu hv huv
    exact hgen cs _ (List.length_replicate ..) hb c hc u v hu hv huv
  intro L
  induction L with
  | nil => intro adj _ _ c hc; cases hc
  | cons c0 rest ih =>
    intro adj hlen hbnd c hc u v hu hv huv
    rw [List.foldl_cons]
    rcases List.mem_cons.mp hc with rfl | hcr
    · have hu' : u < adj.length := by
        rw [hlen]; exact hbnd c (List.mem_cons_self c rest) u hu
      have hv' : v < adj.length := by
        rw [hlen]; exact hbnd c (List.mem_cons_self c rest) v hv
      rcases tailPairs_cover c.ids u v hu hv huv with hp | hp
      · exact foldCs_mono rest _ _ _ (foldPairs_adds _ _ u v hp hu' hv').1
      · exact foldCs_mono rest _ _ _ (foldPairs_adds _ _ v u hp hv' hu').2
    · exact ih _ (by rw [foldPairs_length]; exact hlen)
        (fun c' hc' => hbnd c' (List.mem_cons_of_mem c0 hc')) c hcr u v hu
        hv huv

/-- Every adjacency entry is a constraint id, hence within range. -/
theorem buildAdj_bound (numVars : Nat) (cs : List Constraint)
    (hb : ∀ c ∈ cs, ∀ id ∈ c.ids, id < numVars) :
    ∀ u v : Nat, v ∈ (buildAdj numVars cs).getD u [] → v < numVars := by
  unfold buildAdj
  suffices hgen : ∀ (L : List Constraint) (adj : List (List Nat)),
      (∀ u v : Nat, v ∈ adj.getD u [] → v < numVars) →
      (∀ c ∈ L, ∀ id ∈ c.ids, id < numVars) →
      ∀ u v : Nat,
        v ∈ (L.foldl (fun adj c => (tailPairs c.ids).foldl edgeStep adj)
          adj).getD u [] → v < numVars by
    apply hgen cs _ _ hb
    intro u v hv
    by_cases hu : u < numVars
    · rw [List.getD_eq_getElem _ _ (by simpa using hu),
        List.getElem_replicate] at hv
      cases hv
    · rw [List.getD_eq_default _ _ (by simpa using hu)] at hv
      cases hv
  intro L
  induction L with
  | nil => intro adj hadj _ u v hv; exact hadj u v hv
  | cons c0 rest ih =>
    intro adj hadj hbnd u v hv
    rw [List.foldl_cons] at hv
    refine ih _ ?_ (fun c' hc' => hbnd c' (List.mem_cons_of_mem c0 hc')) u v hv
    -- one constraint's pairs preserve the bound
    have hpairs : ∀ uv ∈ tailPairs c0.ids, uv.1 < numVars ∧ uv.2 < numVars := by
      have hcov : ∀ uv ∈ tailPairs c0.ids, uv.1 ∈ c0.ids ∧ uv.2 ∈ c0.ids := by
        clear hv hadj ih
        induction c0.ids with
        | nil => intro uv huv; cases huv
        | cons a rest2 ih2 =>
          intro uv huv
          simp only [tailPairs, List.mem_append, List.mem_map] at huv
          rcases huv with ⟨b, hb2, rfl⟩ | hr
          · exact ⟨List.mem_cons_self a rest2, List.mem_cons_of_mem a hb2⟩
          · obtain ⟨h1, h2⟩ := ih2 uv hr
            exact ⟨List.mem_cons_of_mem a h1, List.mem_cons_of_mem a h2⟩
      intro uv huv
      obtain ⟨h1, h2⟩ := hcov uv huv
      exact ⟨hbnd c0 (List.mem_cons_self c0 rest) _ h1,
        hbnd c0 (List.mem_cons_self c0 rest) _ h2⟩
    clear hv
    have : ∀ (pairs : List (Nat × Nat)) (adj : List (List Nat)),
        (∀ u v : Nat, v ∈ adj.getD u [] → v < numVars) →
        (∀ uv ∈ pairs, uv.1 < numVars ∧ uv.2 < numVars) →
        ∀ u v : Nat, v ∈ (pairs.foldl edgeStep adj).getD u [] →
          v < numVars := by
      intro pairs
      induction pairs with
      | nil => intro adj hadj _ u v hv; exact hadj u v hv
      | cons uv rest2 ih2 =>
        intro adj hadj hpb u v hv
        rw [List.foldl_cons] at hv
        refine ih2 _ ?_ (fun q hq => hpb q (List.mem_cons_of_mem uv hq)) u v hv
        -- edgeStep preserves the bound
        intro a b hb2
        have hstep : ∀ (adj2 : List (List Nat)) (x y : Nat), y < numVars →
            (∀ u v : Nat, v ∈ adj2.getD u [] → v < numVars) →
            ∀ a b : Nat, b ∈ (pushEdge adj2 x y).getD a [] → b < numVars := by
          intro adj2 x y hy hadj2 a b hb3
          unfold pushEdge at hb3
          split at hb3
          · exact hadj2 a b hb3
          · by_cases hx : x < adj2.length
            · by_cases hax : x = a
              · subst hax
                rw [getD_set_self _ _ _ _ hx] at hb3
                rcases List.mem_append.mp hb3 with h | h
                · exact hadj2 x b h
                · rw [List.mem_singleton] at h
                  exact h ▸ hy
              · rw [getD_set_ne _ _ _ _ _ hax] at hb3
                exact hadj2 a b hb3
            · rw [set_eq_of_length_le _ _ _ (by omega)] at hb3
              exact hadj2 a b hb3
        have h1 := hpb uv (List.mem_cons_self uv rest2)
        unfold edgeStep at hb2
        exact hstep _ uv.2 uv.1 h1.1
          (fun u' v' hm => hstep adj uv.1 uv.2 h1.2 hadj u' v' hm) a b hb2
    exact fun u v hv => this (tailPairs c0.ids) adj hadj hpairs u v hv

/-! ### The component traversal -/

/-- `visited[v]` is set (JavaScript reads an out-of-range index as
`undefined`, i.e. falsy, which `getD` models). -/
def Mk (visited : List Bool) (v : Nat) : Prop := visited.getD v false = true

instance (visited : List Bool) (v : Nat) : Decidable (Mk visited v) := by
  unfold Mk
  infer_instance

/-- The still-unvisited slots: the measure of the traversal loop. -/
def countFalse (l : List Bool) : Nat := l.count false

theorem countFalse_le_length (l : List Bool) : countFalse l ≤ l.length :=
  List.count_le_length ..

theorem countFalse_set (l : List Bool) :
    ∀ v : Nat, v < l.length → l.getD v false = false →
      countFalse (l.set v true) + 1 = countFalse l := by
  induction l with
  | nil => intro v hv; simp at hv
  | cons a rest ih =>
    intro v hv hget
    cases v with
    | zero =>
      simp only [List.getD_cons_zero] at hget
      subst hget
      simp [countFalse, List.count_cons]
    | succ v =>
      simp only [List.getD_cons_succ] at hget
      simp only [List.set_cons_succ]
      have := ih v (by simpa using hv) hget
      simp only [countFalse, List.count_cons] at this ⊢
      omega

theorem mk_set_iff (l : List Bool) (i : Nat) (hi : i < l.length) (v : Nat) :
    Mk (l.set i true) v ↔ (Mk l v ∨ v = i) := by
  unfold Mk
  by_cases hvi : v = i
  · subst hvi
    rw [getD_set_self _ _ _ _ hi]
    simp
  · rw [getD_set_ne _ _ _ _ _ (fun hc => hvi hc.symm)]
    simp [hvi]

/-- What one `while`-iteration's neighbour loop does: marks exactly the
listed ids, pushes exactly the previously-unmarked ones, preserves the
length, and keeps `countFalse + |q|` constant. -/
theorem bfsFold_facts (L : List Nat) :
    ∀ (vis : List Bool) (q : List Nat), (∀ v ∈ L, v < vis.length) →
      ((L.foldl (fun (vq : List Bool × List Nat) v =>
          if vq.1.getD v false then vq else (vq.1.set v true, v :: vq.2))
        (vis, q)).1.length = vis.length)
      ∧ (∀ v, Mk (L.foldl (fun (vq : List Bool × List Nat) v =>
          if vq.1.getD v false then vq else (vq.1.set v true, v :: vq.2))
        (vis, q)).1 v ↔ (Mk vis v ∨ v ∈ L))
      ∧ (∀ v, v ∈ (L.foldl (fun (vq : List Bool × List Nat) v =>
          if vq.1.getD v false then vq else (vq.1.set v true, v :: vq.2))
        (vis, q)).2 ↔ (v ∈ q ∨ (v ∈ L ∧ ¬Mk vis v)))
      ∧ (countFalse (L.foldl (fun (vq : List Bool × List Nat) v =>
          if vq.1.getD v false then vq else (vq.1.set v true, v :: vq.2))
        (vis, q)).1
        + (L.foldl (fun (vq : List Bool × List Nat) v =>
          if vq.1.getD v false then vq else (vq.1.set v true, v :: vq.2))
        (vis, q)).2.length = countFalse vis + q.length) := by
  induction L with
  | nil =>
    intro vis q _
    refine ⟨rfl, fun v => by simp, fun v => by simp, rfl⟩
  | cons v0 L' ih =>
    intro vis q hL
    have hv0 : v0 < vis.length := hL v0 (List.mem_cons_self v0 L')
    rw [List.foldl_cons]
    by_cases hM : vis.getD v0 false = true
    · rw [if_pos hM]
      obtain ⟨ih1, ih2, ih3, ih4⟩ :=
        ih vis q (fun v hv => hL v (List.mem_cons_of_mem v0 hv))
      refine ⟨ih1, fun v => ?_, fun v => ?_, ih4⟩
      · rw [ih2 v, List.mem_cons]
        constructor
        · rintro (h | h)
          · exact Or.inl h
          · exact Or.inr (Or.inr h)
        · rintro (h | rfl | h)
          · exact Or.inl h
          · exact Or.inl hM
          · exact Or.inr h
      · rw [ih3 v, List.mem_cons]
        constructor
        · rintro (h | h)
          · exact Or.inl h
          · exact Or.inr ⟨Or.inr h.1, h.2⟩
        · rintro (h | ⟨(rfl | h1), h2⟩)
          · exact Or.inl h
          · exact absurd hM h2
          · exact Or.inr ⟨h1, h2⟩
    · rw [if_neg hM]
      rw [Bool.not_eq_true] at hM
      obtain ⟨ih1, ih2, ih3, ih4⟩ := ih (vis.set v0 true) (v0 :: q)
        (fun v hv => by
          rw [List.length_set]
          exact hL v (List.mem_cons_of_mem v0 hv))
      have hmset := mk_set_iff vis v0 hv0
      refine ⟨by rw [ih1, List.length_set], fun v => ?_, fun v => ?_, ?_⟩
      · rw [ih2 v, hmset v, List.mem_cons]
        constructor
        · rintro ((h | rfl) | h)
          · exact Or.inl h
          · exact Or.inr (Or.inl rfl)
          · exact Or.inr (Or.inr h)
        · rintro (h | rfl | h)
          · exact Or.inl (Or.inl h)
          · exact Or.inl (Or.inr rfl)
          · exact Or.inr h
      · rw [ih3 v, List.mem_cons, List.mem_cons]
        constructor
        · rintro ((rfl | h) | ⟨h1, h2⟩)
          · exact Or.inr ⟨Or.inl rfl,
              by unfold Mk; rw [hM]; exact Bool.false_ne_true⟩
          · exact Or.inl h
          · rw [hmset v] at h2
            push_neg at h2
            exact Or.inr ⟨Or.inr h1, h2.1⟩
        · rintro (h | ⟨(rfl | h1), h2⟩)
          · exact Or.inl (Or.inr h)
          · exact Or.inl (Or.inl rfl)
          · by_cases hvv0 : v = v0
            · exact Or.inl (Or.inl hvv0)
            · refine Or.inr ⟨h1, ?_⟩
              rw [hmset v]
              push_neg
              exact ⟨h2, hvv0⟩
      · rw [ih4, List.length_cons]
        have := countFalse_set vis v0 hv0 hM
        omega

/-- Full specification of the component traversal, relative to the marks
`visited₀` standing before the component's seed was marked: the traversal
terminates, marks exactly `visited₀` plus the collected component, collects
only fresh in-range ids, and leaves every neighbour of a collected id
marked. -/
theorem bfs_spec (adj : List (List Nat)) (numVars : Nat) (visited₀ : List Bool)
    (hadjBound : ∀ u v, v ∈ adj.getD u [] → v < numVars) :
    ∀ (fuel : Nat) (q : List Nat) (visited : List Bool) (acc : List Nat),
      visited.length = numVars →
      (∀ v ∈ q, Mk visited v ∧ v < numVars ∧ ¬Mk visited₀ v) →
      (∀ v, Mk visited v ↔ (Mk visited₀ v ∨ v ∈ acc ∨ v ∈ q)) →
      (∀ v ∈ acc, ¬Mk visited₀ v ∧ v < numVars) →
      (∀ u ∈ acc, ∀ v ∈ adj.getD u [], Mk visited v) →
      countFalse visited + q.length < fuel →
      ∃ accNew visF, bfsF adj fuel q visited acc = some (acc ++ accNew, visF)
        ∧ visF.length = numVars
        ∧ (∀ v, Mk visF v ↔ (Mk visited₀ v ∨ v ∈ acc ++ accNew))
        ∧ (∀ v ∈ acc ++ accNew, ¬Mk visited₀ v ∧ v < numVars)
        ∧ (∀ u ∈ acc ++ accNew, ∀ v ∈ adj.getD u [], Mk visF v) := by
  intro fuel
  induction fuel with
  | zero =>
    intro q visited acc hlen hq hiff hacc hcl hmeas
    cases q with
    | nil =>
      refine ⟨[], visited, by simp [bfsF], hlen, fun v => ?_, ?_, ?_⟩
      · rw [List.append_nil]
        have := hiff v
        simp only [List.not_mem_nil, or_false] at this
        exact this
      · rw [List.append_nil]; exact hacc
      · rw [List.append_nil]; exact hcl
    | cons u q' => simp at hmeas
  | succ fuel ih =>
    intro q visited acc hlen hq hiff hacc hcl hmeas
    cases q with
    | nil =>
      refine ⟨[], visited, by simp [bfsF], hlen, fun v => ?_, ?_, ?_⟩
      · rw [List.append_nil]
        have := hiff v
        simp only [List.not_mem_nil, or_false] at this
        exact this
      · rw [List.append_nil]; exact hacc
      · rw [List.append_nil]; exact hcl
    | cons u q' =>
      obtain ⟨hqu1, hqu2, hqu3⟩ := hq u (List.mem_cons_self u q')
      obtain ⟨f1, f2, f3, f4⟩ := bfsFold_facts (adj.getD u []) visited q'
        (fun v hv => by rw [hlen]; exact hadjBound u v hv)
      obtain ⟨accNew', visF, heq, hc1, hc2, hc3, hc4⟩ :=
        ih (((adj.getD u []).foldl (fun (vq : List Bool × List Nat) v =>
            if vq.1.getD v false then vq else (vq.1.set v true, v :: vq.2))
          (visited, q')).2)
          (((adj.getD u []).foldl (fun (vq : List Bool × List Nat) v =>
            if vq.1.getD v false then vq else (vq.1.set v true, v :: vq.2))
          (visited, q')).1)
          (acc ++ [u])
          (by rw [f1, hlen])
          (by
            intro v hv
            rcases (f3 v).mp hv with h | ⟨h1, h2⟩
            · obtain ⟨g1, g2, g3⟩ := hq v (List.mem_cons_of_mem u h)
              exact ⟨(f2 v).mpr (Or.inl g1), g2, g3⟩
            · refine ⟨(f2 v).mpr (Or.inr h1), hadjBound u v h1, ?_⟩
              intro hc
              exact h2 ((hiff v).mpr (Or.inl hc)))
          (by
            intro v
            rw [f2 v, hiff v, f3 v]
            simp only [List.mem_append, List.mem_cons, List.mem_singleton,
              List.not_mem_nil, or_false]
            by_cases hMv : Mk visited v
            · have hprev := (hiff v).mp hMv
              simp only [List.mem_cons] at hprev
              tauto
            · tauto)
          (by
            intro v hv
            rcases List.mem_append.mp hv with h | h
            · exact hacc v h
            · rw [List.mem_singleton] at h
              subst h
              exact ⟨hqu3, hqu2⟩)
          (by
            intro u' hu' v hv
            rcases List.mem_append.mp hu' with h | h
            · exact (f2 v).mpr (Or.inl (hcl u' h v hv))
            · rw [List.mem_singleton] at h
              subst h
              exact (f2 v).mpr (Or.inr hv))
          (by
            rw [f4]
            simp only [List.length_cons] at hmeas
            omega)
      have hassoc : (acc ++ [u]) ++ accNew' = acc ++ u :: accNew' := by
        rw [List.append_assoc, List.singleton_append]
      rw [hassoc] at heq hc2 hc3 hc4
      refine ⟨u :: accNew', visF, ?_, hc1, hc2, hc3, hc4⟩
      rw [show bfsF adj (fuel + 1) (u :: q') visited acc
          = bfsF adj fuel
            (((adj.getD u []).foldl (fun (vq : List Bool × List Nat) v =>
              if vq.1.getD v false then vq
              else (vq.1.set v true, v :: vq.2)) (visited, q')).2)
            (((adj.getD u []).foldl (fun (vq : List Bool × List Nat) v =>
              if vq.1.getD v false then vq
              else (vq.1.set v true, v :: vq.2)) (visited, q')).1)
            (acc ++ [u]) from rfl]
      exact heq

/-- Specialisation of `bfs_spec` to the call the component loop makes: seed
`[i]` with `i` freshly marked. -/
theorem bfs_call (adj : List (List Nat)) (numVars : Nat)
    (visited : List Bool) (i : Nat)
    (hadjBound : ∀ u v, v ∈ adj.getD u [] → v < numVars)
    (hlen : visited.length = numVars) (hi : i < numVars)
    (hfresh : visited.getD i false = false) :
    ∃ comp visF,
      bfsF adj (numVars + 1) [i] (visited.set i true) [] = some (comp, visF)
      ∧ visF.length = numVars
      ∧ (∀ v, Mk visF v ↔ (Mk visited v ∨ v ∈ comp))
      ∧ (∀ v ∈ comp, ¬Mk visited v ∧ v < numVars)
      ∧ (∀ u ∈ comp, ∀ v ∈ adj.getD u [], Mk visF v) := by
  have hhi : i < visited.length := by omega
  obtain ⟨accNew, visF, heq, h1, h2, h3, h4⟩ :=
    bfs_spec adj numVars visited hadjBound (numVars + 1) [i]
      (visited.set i true) []
      (by rw [List.length_set]; exact hlen)
      (by
        intro v hv
        rw [List.mem_singleton] at hv
        subst hv
        exact ⟨(mk_set_iff visited v hhi v).mpr (Or.inr rfl), hi,
          by unfold Mk; rw [hfresh]; exact Bool.false_ne_true⟩)
      (by
        intro v
        rw [mk_set_iff visited i hhi v]
        simp only [List.not_mem_nil, List.mem_singleton, false_or])
      (by intro v hv; cases hv)
      (by intro u hu; cases hu)
      (by
        have := countFalse_set visited i hhi hfresh
        have := countFalse_le_length visited
        simp only [List.length_singleton]
        omega)
  exact ⟨accNew, visF, by simpa using heq, h1, by simpa using h2,
    by simpa using h3, by simpa using h4⟩

/-- The component loop never runs out of traversal budget. -/
theorem compLoop_isSome (cs : List Constraint) (adj : List (List Nat))
    (numVars : Nat) (hadjBound : ∀ u v, v ∈ adj.getD u [] → v < numVars) :
    ∀ (is : List Nat) (visited : List Bool), (∀ i ∈ is, i < numVars) →
      visited.length = numVars →
      (compLoop cs adj numVars is visited).isSome = true := by
  intro is
  induction is with
  | nil => intro visited _ _; rfl
  | cons i rest ih =>
    intro visited his hlen
    simp only [compLoop]
    by_cases hvis : visited.getD i false = true
    · rw [if_pos hvis]
      exact ih visited (fun j hj => his j (List.mem_cons_of_mem i hj)) hlen
    · rw [if_neg hvis]
      rw [Bool.not_eq_true] at hvis
      obtain ⟨comp, visF, heq, h1, _, _, _⟩ :=
        bfs_call adj numVars visited i hadjBound hlen
          (his i (List.mem_cons_self i rest)) hvis
      rw [heq]
      dsimp only
      by_cases hsz :
          (solveComp (compConstraints cs comp) comp.length).length = 0
      · rw [if_pos hsz]
        exact ih visF (fun j hj => his j (List.mem_cons_of_mem i hj)) h1
      · rw [if_neg hsz]
        by_cases hany : ((List.range comp.length).any
            (fun j => (solveComp (compConstraints cs comp)
              comp.length).all (fun sol => !decide (sol.getD j 0 = 1)))) = true
        · rw [if_pos hany]; rfl
        · rw [if_neg hany]
          exact ih visF (fun j hj => his j (List.mem_cons_of_mem i hj)) h1

/-- A scan-level safe witness gives the semantic conclusion: the witness
cell's hidden neighbours are all safe under every consistent assignment. -/
theorem safeWitness_safeExists (w h : Int) (isVisible : Int → Int → Bool)
    (get : Int → Int → Tile) (hw : SafeWitness w h isVisible get) :
    SafeExists w h isVisible get := by
  obtain ⟨x, y, hin, hv, n, hg, hhn, hrem⟩ := hw
  obtain ⟨p, hp⟩ := List.exists_mem_of_ne_nil _ hhn
  obtain ⟨hpo, hph⟩ := hiddenNeighbors_mem w h isVisible x y p hp
  refine ⟨p, hpo, hph, ?_⟩
  intro m hm
  have hcm := hm x y hin hv n hg
  have hlen0 : ((hiddenNeighbors w h isVisible x y).filter m).length = 0 := by
    omega
  have hfil := List.length_eq_zero.mp hlen0
  have hnp := List.filter_eq_nil_iff.mp hfil p hp
  simpa using hnp

/-- If the component loop finds an always-safe variable, some hidden cell is
safe under every consistent assignment. -/
theorem compLoop_sound (w h : Int) (isVisible : Int → Int → Bool)
    (get : Int → Int → Tile) (keys : List (Int × Int))
    (cs : List Constraint) (adj : List (List Nat)) (numVars : Nat)
    (hkeys : KeysInv w h isVisible keys) (hnum : numVars = keys.length)
    (hcs : ∀ c ∈ cs, ConstraintSound w h isVisible get keys c)
    (hadjBound : ∀ u v, v ∈ adj.getD u [] → v < numVars)
    (hedge : ∀ c ∈ cs, ∀ u v : Nat, u ∈ c.ids → v ∈ c.ids → u ≠ v →
      v ∈ adj.getD u []) :
    ∀ (is : List Nat) (visited : List Bool), visited.length = numVars →
      (∀ i ∈ is, i < numVars) →
      (∀ u, Mk visited u → ∀ v ∈ adj.getD u [], Mk visited v) →
      compLoop cs adj numVars is visited = some false →
      SafeExists w h isVisible get := by
  intro is
  induction is with
  | nil => intro visited _ _ _ hres; cases hres
  | cons i rest ih =>
    intro visited hlen his hclosed hres
    simp only [compLoop] at hres
    by_cases hvis : visited.getD i false = true
    · rw [if_pos hvis] at hres
      exact ih visited hlen (fun j hj => his j (List.mem_cons_of_mem i hj))
        hclosed hres
    · rw [if_neg hvis] at hres
      rw [Bool.not_eq_true] at hvis
      obtain ⟨comp, visF, heq, h1, h2, h3, h4⟩ :=
        bfs_call adj numVars visited i hadjBound hlen
          (his i (List.mem_cons_self i rest)) hvis
      rw [heq] at hres
      dsimp only at hres
      have hclosedF : ∀ u, Mk visF u → ∀ v ∈ adj.getD u [], Mk visF v := by
        intro u hu v hv
        rcases (h2 u).mp hu with hold | hcomp
        · exact (h2 v).mpr (Or.inl (hclosed u hold v hv))
        · exact h4 u hcomp v hv
      by_cases hsz :
          (solveComp (compConstraints cs comp) comp.length).length = 0
      · rw [if_pos hsz] at hres
        exact ih visF h1 (fun j hj => his j (List.mem_cons_of_mem i hj))
          hclosedF hres
      · rw [if_neg hsz] at hres
        by_cases hany : ((List.range comp.length).any
            (fun j => (solveComp (compConstraints cs comp)
              comp.length).all (fun sol => !decide (sol.getD j 0 = 1)))) = true
        · clear hres
          obtain ⟨j, hjr, hjall⟩ := List.any_eq_true.mp hany
          have hj : j < comp.length := List.mem_range.mp hjr
          have hallsafe : ∀ sol ∈ solveComp (compConstraints cs comp)
              comp.length, ¬(sol.getD j 0 = 1) := by
            intro sol hsol
            have := List.all_eq_true.mp hjall sol hsol
            simpa using this
          -- the safe hidden cell
          have hidj_mem : comp.getD j 0 ∈ comp := by
            rw [List.getD_eq_getElem _ _ hj]
            exact List.getElem_mem hj
          have hidj_lt : comp.getD j 0 < numVars := (h3 _ hidj_mem).2
          have hkeyp := hkeys (comp.getD j 0) (by omega)
          refine ⟨keys.getD (comp.getD j 0) (0, 0), hkeyp.1, hkeyp.2, ?_⟩
          intro m hm
          -- the restriction of m to the component
          set r : List Int := comp.map
            (fun v => if m (keys.getD v (0, 0)) then (1 : Int) else 0)
            with hr
          have hrlen : r.length = comp.length := by
            rw [hr, List.length_map]
          have hrbits : Bits01 r := by
            intro v hv
            rw [hr] at hv
            obtain ⟨u, _, rfl⟩ := List.mem_map.mp hv
            by_cases hmu : m (keys.getD u (0, 0)) = true <;> simp [hmu]
          have hrget : ∀ id ∈ comp, r.getD (comp.indexOf id) 0
              = (if m (keys.getD id (0, 0)) then (1 : Int) else 0) := by
            intro id hid
            have hlt : comp.indexOf id < comp.length :=
              List.indexOf_lt_length.mpr hid
            rw [hr, List.getD_eq_getElem _ _ (by
              rw [List.length_map]; exact hlt)]
            rw [List.getElem_map, List.getElem_indexOf hlt]
          have hrsat : SatC (compConstraints cs comp) r := by
            intro c2 hc2
            unfold compConstraints at hc2
            obtain ⟨c, hcf, rfl⟩ := List.mem_map.mp hc2
            obtain ⟨hcmem, hctouch⟩ := List.mem_filter.mp hcf
            obtain ⟨id0, hid0c, hid0comp'⟩ := List.any_eq_true.mp hctouch
            have hid0comp : id0 ∈ comp := by simpa using hid0comp'
            -- the whole constraint lies inside the component
            have hinside : ∀ id ∈ c.ids, id ∈ comp := by
              intro id hidc
              by_cases hii : id = id0
              · exact hii ▸ hid0comp
              · have hadj1 : id ∈ adj.getD id0 [] :=
                  hedge c hcmem id0 id hid0c hidc (fun hc => hii hc.symm)
                have hmkF : Mk visF id := h4 id0 hid0comp id hadj1
                rcases (h2 id).mp hmkF with hold | hin
                · -- a previously-closed mark would swallow id0 too
                  have hadj2 : id0 ∈ adj.getD id [] :=
                    hedge c hcmem id id0 hidc hid0c hii
                  have := hclosed id hold id0 hadj2
                  exact absurd this (h3 id0 hid0comp).1
                · exact hin
            have hfilter : c.ids.filter (fun id => comp.contains id)
                = c.ids := by
              apply List.filter_eq_self.mpr
              intro id hid
              simpa using hinside id hid
            dsimp only
            rw [hfilter, List.map_map]
            have hmapeq : (c.ids.map
                  (fun id => r.getD (comp.indexOf id) 0))
                = c.ids.map (fun id =>
                    if m (keys.getD id (0, 0)) then (1 : Int) else 0) :=
              List.map_congr_left (fun id hid => hrget id (hinside id hid))
            simp only [Function.comp_def]
            rw [hmapeq]
            exact (hcs c hcmem).2 m hm
          have hrmem : r ∈ solveComp (compConstraints cs comp) comp.length :=
            solveComp_complete _ _ r (by omega) hrbits hrsat
          have hne1 := hallsafe r hrmem
          have hjval : r.getD j 0 = (if m (keys.getD (comp.getD j 0) (0, 0))
              then (1 : Int) else 0) := by
            rw [hr, List.getD_eq_getElem _ _ (by
              rw [List.length_map]; exact hj)]
            rw [List.getElem_map]
            congr 2
            rw [List.getD_eq_getElem _ _ hj]
          rw [hjval] at hne1
          by_cases hmp : m (keys.getD (comp.getD j 0) (0, 0)) = true
          · rw [if_pos hmp] at hne1
            exact absurd rfl hne1
          · simpa using hmp
        · rw [if_neg hany] at hres
          exact ih visF h1 (fun j hj => his j (List.mem_cons_of_mem i hj))
            hclosedF hres

theorem mk_replicate_false (n u : Nat) :
    ¬Mk (List.replicate n false) u := by
  unfold Mk
  by_cases hu : u < n
  · rw [List.getD_eq_getElem _ _ (by simpa using hu), List.getElem_replicate]
    exact Bool.false_ne_true
  · rw [List.getD_eq_default _ _ (by simpa using hu)]
    exact Bool.false_ne_true

/-- `isAmbiguous` never exhausts its traversal budget: the embedded budget
`numVars + 1` always suffices, i.e. the solver terminates. -/
theorem isAmbiguous_isSome (w h : Int) (isVisible : Int → Int → Bool)
    (get : Int → Int → Tile) :
    (isAmbiguous w h isVisible get).isSome = true := by
  simp only [isAmbiguous]
  by_cases hsf : (scanBoard w h isVisible get).safeFound = true
  · rw [if_pos hsf]; rfl
  · rw [if_neg hsf]
    by_cases hemp : (scanBoard w h isVisible get).constraints.isEmpty = true
    · rw [if_pos hemp]
      cases hv2 : (scanBoard w h isVisible get).hasVisible
      · rw [if_pos (by rfl)]; rfl
      · rw [if_neg (by simp)]
        by_cases hany : ((board w h).any fun p => !isVisible p.1 p.2) = true
        · rw [if_pos hany]; rfl
        · rw [if_neg hany]; rfl
    · rw [if_neg hemp]
      apply compLoop_isSome
      · apply buildAdj_bound
        intro c hc id hid
        exact ((scanBoard_inv w h isVisible get).2.1 c hc).1 id hid
      · intro i hi
        exact List.mem_range.mp hi
      · exact List.length_replicate ..

/-- C1 (amended): when some cell is visible and some cell is hidden, a
`false` verdict from `isAmbiguous` guarantees a hidden in-bounds cell that is
safe under every mine assignment consistent with the visible Number tiles. -/
theorem isAmbiguous_sound (w h : Int) (isVisible : Int → Int → Bool)
    (get : Int → Int → Tile)
    (hvis : ∃ x y, oob w h x y = false ∧ isVisible x y = true)
    (hhid : ∃ x y, oob w h x y = false ∧ isVisible x y = false)
    (hres : isAmbiguous w h isVisible get = some false) :
    SafeExists w h isVisible get := by
  obtain ⟨hkeys, hcons, hsafe⟩ := scanBoard_inv w h isVisible get
  simp only [isAmbiguous] at hres
  by_cases hsf : (scanBoard w h isVisible get).safeFound = true
  · exact safeWitness_safeExists w h isVisible get (hsafe hsf)
  · rw [if_neg hsf] at hres
    by_cases hemp : (scanBoard w h isVisible get).constraints.isEmpty = true
    · rw [if_pos hemp] at hres
      have hhv : (scanBoard w h isVisible get).hasVisible = true := by
        rw [scanBoard_hasVisible w h isVisible get (Bool.not_eq_true _ ▸ hsf)]
        obtain ⟨x, y, hxy, hv⟩ := hvis
        exact List.any_eq_true.mpr ⟨(x, y), (mem_board w h x y).mpr hxy, hv⟩
      rw [if_neg (by rw [hhv]; simp)] at hres
      have hanyh : ((board w h).any fun p => !isVisible p.1 p.2) = true := by
        obtain ⟨x, y, hxy, hv⟩ := hhid
        exact List.any_eq_true.mpr ⟨(x, y), (mem_board w h x y).mpr hxy,
          by simp [hv]⟩
      rw [if_pos hanyh] at hres
      cases hres
    · rw [if_neg hemp] at hres
      have hbound : ∀ c ∈ (scanBoard w h isVisible get).constraints,
          ∀ id ∈ c.ids, id < (scanBoard w h isVisible get).keys.length :=
        fun c hc id hid => (hcons c hc).1 id hid
      exact compLoop_sound w h isVisible get
        (scanBoard w h isVisible get).keys
        (scanBoard w h isVisible get).constraints
        (buildAdj (scanBoard w h isVisible get).keys.length
          (scanBoard w h isVisible get).constraints)
        (scanBoard w h isVisible get).keys.length
        hkeys rfl hcons
        (buildAdj_bound _ _ hbound)
        (buildAdj_mem _ _ hbound)
        (List.range (scanBoard w h isVisible get).keys.length)
        (List.replicate (scanBoard w h isVisible get).keys.length false)
        (List.length_replicate ..)
        (fun i hi => List.mem_range.mp hi)
        (fun u hu => absurd hu (mk_replicate_false _ u))
        hres

/-- C1 (counterexample): on a 1×1 board with nothing visible, `isAmbiguous`
returns `false`, yet no hidden cell is safe in every consistent assignment —
the all-mines assignment satisfies the (empty) visible constraints. -/
theorem isAmbiguous_sound_cex :
    isAmbiguous 1 1 (fun _ _ => false) (fun _ _ => Tile.emp) = some false
    ∧ ¬SafeExists 1 1 (fun _ _ => false) (fun _ _ => Tile.emp) := by
  constructor
  · decide
  · rintro ⟨p, _, _, hsafe⟩
    have hall := hsafe (fun _ => true) ?_
    · cases hall
    · intro x y _ hvt
      cases hvt

theorem isAmbiguous_sound_witness :
    ((∃ x y, oob 3 2 x y = false
        ∧ (fun (_ : Int) (y : Int) => decide (y = 0)) x y = true)
      ∧ (∃ x y, oob 3 2 x y = false
        ∧ (fun (_ : Int) (y : Int) => decide (y = 0)) x y = false)
      ∧ isAmbiguous 3 2 (fun _ y => decide (y = 0))
          (fun x y =>
            if y = 0 then (if x = 1 then .num 2 else .num 1)
            else (if x = 1 then .emp else .mine)) = some false)
    ∧ SafeExists 3 2 (fun _ y => decide (y = 0))
        (fun x y =>
          if y = 0 then (if x = 1 then .num 2 else .num 1)
          else (if x = 1 then .emp else .mine)) :=
  ⟨⟨⟨0, 0, by decide, by decide⟩, ⟨0, 1, by decide, by decide⟩, by decide⟩,
    isAmbiguous_sound 3 2 (fun _ y => decide (y = 0))
      (fun x y =>
        if y = 0 then (if x = 1 then .num 2 else .num 1)
        else (if x = 1 then .emp else .mine))
      ⟨0, 0, by decide, by decide⟩ ⟨0, 1, by decide, by decide⟩ (by decide)⟩

/-- C8: both core algorithms terminate — the flood fill completes within a
budget of `hiddenCount + 2` on every in-bounds reveal, and the solver's
component traversal completes within its budget on every board. -/
theorem core_terminates :
    (∀ (st : GameState) (x y : Int), oob st.w st.h x y = false →
      (revealRecF (hiddenCount st + 2) st x y).isSome = true)
    ∧ ∀ (w h : Int) (isVisible : Int → Int → Bool) (get : Int → Int → Tile),
      (isAmbiguous w h isVisible get).isSome = true :=
  ⟨revealRecF_terminates, isAmbiguous_isSome⟩

theorem core_terminates_witness :
    (oob (1 : Int) (1 : Int) 0 0 = false
      ∧ (revealRecF
          (hiddenCount ⟨1, 1, fun _ _ => .emp, fun _ _ => false, []⟩ + 2)
          ⟨1, 1, fun _ _ => .emp, fun _ _ => false, []⟩ 0 0).isSome = true)
    ∧ (isAmbiguous 2 2 (fun _ _ => false) (fun _ _ => Tile.emp)).isSome
        = true :=
  ⟨⟨by decide, core_terminates.1 ⟨1, 1, fun _ _ => .emp, fun _ _ => false, []⟩
      0 0 (by decide)⟩,
    core_terminates.2 2 2 (fun _ _ => false) (fun _ _ => Tile.emp)⟩

/-! ## Flagging (`flag(x, y)`)

The canonical `flag` implementation is not present under the sources (the
servers in part_000/part_001 call `game.flag(x, y)` and read `TileFlag`, but
no file defines them), so the operation is modelled from the spec. -/

/-- Modelled from the spec: the three-state flag marker of a cell
(`None → Flagged → Questioned → None`, §3 and §4.5); the `flag`
implementation itself is missing from the sources. -/
inductive FlagState where
  | clear : FlagState
  | flagged : FlagState
  | questioned : FlagState
deriving DecidableEq, Repr

/-- Modelled from the spec: one step of the flag cycle. -/
def cycleFlag : FlagState → FlagState
  | .clear => .flagged
  | .flagged => .questioned
  | .questioned => .clear

/-- Modelled from the spec: the state `flag` operates on — geometry,
visibility overlay and per-cell flag markers. -/
structure FlagGame where
  w : Int
  h : Int
  visible : Int → Int → Bool
  flags : Int × Int → FlagState

/-- Modelled from the spec (§4.5): `flag(x, y)` is bounds-checked, cycles the
cell's flag state, is a no-op on a revealed cell, and always emits one change
notification for that coordinate. -/
def flagOp (g : FlagGame) (x y : Int) :
    Option (FlagGame × List (Int × Int)) :=
  if oob g.w g.h x y then none
  else
    let g' := if g.visible x y then g
      else { g with flags := fun p =>
        if p = (x, y) then cycleFlag (g.flags (x, y)) else g.flags p }
    some (g', [(x, y)])

/-- C9: flagging cycles the cell `None→Flagged→Questioned→None` (three calls
return to the start), is a no-op on a revealed cell, always delivers exactly
the one changed coordinate, and touches no other cell. -/
theorem flag_spec (g : FlagGame) (x y : Int)
    (hin : oob g.w g.h x y = false) :
    ∃ g' : FlagGame, flagOp g x y = some (g', [(x, y)])
    ∧ (g.visible x y = true → g' = g)
    ∧ (g.visible x y = false →
        g'.flags (x, y) = cycleFlag (g.flags (x, y)))
    ∧ (∀ p : Int × Int, p ≠ (x, y) → g'.flags p = g.flags p)
    ∧ g'.w = g.w ∧ g'.h = g.h
    ∧ (∀ a b, g'.visible a b = g.visible a b)
    ∧ cycleFlag (cycleFlag (cycleFlag (g.flags (x, y)))) = g.flags (x, y) := by
  unfold flagOp
  rw [if_neg (by simp [hin])]
  by_cases hv : g.visible x y = true
  · rw [if_pos hv]
    refine ⟨g, rfl, fun _ => rfl, fun hc => absurd hv (by simp [hc]),
      fun p _ => rfl, rfl, rfl, fun _ _ => rfl, ?_⟩
    rcases hfs : g.flags (x, y) with _ | _ | _ <;> rfl
  · rw [if_neg hv]
    refine ⟨_, rfl, fun hc => absurd hc hv, fun _ => by simp,
      fun p hp => by simp [hp], rfl, rfl, fun _ _ => rfl, ?_⟩
    rcases hfs : g.flags (x, y) with _ | _ | _ <;> rfl

theorem flag_spec_witness :
    oob (1 : Int) (1 : Int) 0 0 = false
    ∧ ∃ g' : FlagGame,
        flagOp ⟨1, 1, fun _ _ => false, fun _ => .clear⟩ 0 0
          = some (g', [((0 : Int), (0 : Int))])
        ∧ ((⟨1, 1, fun _ _ => false, fun _ => .clear⟩ : FlagGame).visible 0 0
              = true →
            g' = ⟨1, 1, fun _ _ => false, fun _ => .clear⟩)
        ∧ ((⟨1, 1, fun _ _ => false, fun _ => .clear⟩ : FlagGame).visible 0 0
              = false →
            g'.flags (0, 0) = cycleFlag
              ((⟨1, 1, fun _ _ => false, fun _ => .clear⟩
                : FlagGame).flags (0, 0)))
        ∧ (∀ p : Int × Int, p ≠ (0, 0) →
            g'.flags p = (⟨1, 1, fun _ _ => false, fun _ => .clear⟩
              : FlagGame).flags p)
        ∧ g'.w = 1 ∧ g'.h = 1
        ∧ (∀ a b, g'.visible a b
            = (⟨1, 1, fun _ _ => false, fun _ => .clear⟩
              : FlagGame).visible a b)
        ∧ cycleFlag (cycleFlag (cycleFlag
            ((⟨1, 1, fun _ _ => false, fun _ => .clear⟩
              : FlagGame).flags (0, 0))))
          = (⟨1, 1, fun _ _ => false, fun _ => .clear⟩
              : FlagGame).flags (0, 0) :=
  ⟨by decide, flag_spec ⟨1, 1, fun _ _ => false, fun _ => .clear⟩ 0 0
    (by decide)⟩

end Multisweeper

namespace Multisweeper

set_option maxRecDepth 40000 in
/-- C3 (counterexample): a 481×1 board (area 481 > 480) that is neither lost
nor fully cleared, where `isGameOver` nevertheless consults the solver and
returns `WIN` — there is no area cap in the code. -/
theorem isGameOver_area_cex :
    ((481 : Int) * 1 > 480)
    ∧ (board 481 1).any (fun p =>
        (fun x y => decide (x = 0 ∧ y = 0)) p.1 p.2
          && decide ((fun _ _ => Tile.emp) p.1 p.2 = Tile.mine)) = false
    ∧ (board 481 1).all (fun p =>
        (fun x y => decide (x = 0 ∧ y = 0)) p.1 p.2
          || decide ((fun _ _ => Tile.emp) p.1 p.2 = Tile.mine)) = false
    ∧ isGameOver 481 1 (fun x y => decide (x = 0 ∧ y = 0)) (fun _ _ => .emp)
        = some .win := by
  refine ⟨by decide, by decide, by decide, by decide⟩

end Multisweeper
